import Mathlib

/-!
Verification of the symbolic-reasoning core of the `synth` configuration-
synthesis system, shallowly embedded from `synth/synthesis/classes.py`,
`synth/synthesis/serialization.py` and `synth/synthesis/knowledge_base.py`.

Modelling conventions:
* Python strings are modelled as `List Char` (named `Str`).
* Python `dict`s are modelled as association lists with the same
  insert-or-update semantics (`dput`), lookups via `dget`.
* Python sets/frozensets are modelled as `Finset`s.
* A Python function that may raise is modelled as `Except Unit`; raising
  `MatchingException` corresponds to `.error ()`.
* Argument `transformer` callables form a closed set in the code
  (`_identity` and `_undo_path_replacement`), modelled as an inductive.
-/

namespace Synth

/-- Python strings, modelled as lists of characters. -/
abbrev Str := List Char

/-- The closed set of argument transformer callables used by the code:
`_identity` and `_undo_path_replacement` (`classes.py` lines 57-86). -/
inductive Transformer where
  | identity
  | undoPathReplacement
  deriving DecidableEq, Repr

/-- Application of a transformer. `_undo_path_replacement` replaces every
`/` with `.`. -/
def Transformer.apply : Transformer → Str → Str
  | .identity, s => s
  | .undoPathReplacement, s => s.map (fun c => if c = '/' then '.' else c)

/-- A configuration task argument (`ConfigurationTaskArgument`,
`classes.py` lines 89-131), restricted to string-valued originals, so
`value = str(original_value) = original_value` and the two fields are
merged. -/
structure ConfigurationTaskArgument where
  value : Str
  transformer : Transformer
  pre_transform_value : Option Str
  deriving DecidableEq, Repr

/-- Construction of an argument from a plain original value
(identity transformer, no pre-transform value). -/
def ConfigurationTaskArgument.ofValue (v : Str) : ConfigurationTaskArgument :=
  ⟨v, .identity, none⟩

/-- A Python `dict` from arguments to arguments, as an association list. -/
abbrev ArgDict := List (ConfigurationTaskArgument × ConfigurationTaskArgument)

/-- Python `d.get(k, None)`. -/
def dget (d : ArgDict) (k : ConfigurationTaskArgument) :
    Option ConfigurationTaskArgument :=
  (d.find? (fun p => p.1 = k)).map (fun p => p.2)

/-- Python `d[k] = v`: update the value in place if the key is present,
otherwise append a new entry. -/
def dput (d : ArgDict) (k v : ConfigurationTaskArgument) : ArgDict :=
  if (d.find? (fun p => p.1 = k)).isSome then
    d.map (fun p => if p.1 = k then (p.1, v) else p)
  else
    d ++ [(k, v)]

/-- A mapping of source to target configuration task arguments
(`ConfigurationTaskArgumentMapping`, `classes.py` lines 134-328), stored as
two dictionaries. -/
structure ConfigurationTaskArgumentMapping where
  source_arguments : ArgDict
  target_arguments : ArgDict
  deriving DecidableEq, Repr

namespace ConfigurationTaskArgumentMapping

/-- The empty mapping (`ConfigurationTaskArgumentMapping()`). -/
def empty : ConfigurationTaskArgumentMapping := ⟨[], []⟩

/-- Add a new pair to the mapping (`add_pair`, lines 263-288). Raising
`MatchingException` is modelled as `.error ()`. -/
def add_pair (m : ConfigurationTaskArgumentMapping)
    (pair : ConfigurationTaskArgument × ConfigurationTaskArgument) :
    Except Unit ConfigurationTaskArgumentMapping :=
  let aMap := dget m.source_arguments pair.1
  let bMap := dget m.target_arguments pair.2
  if (aMap.isSome ∧ aMap ≠ some pair.2) ∨ (bMap.isSome ∧ bMap ≠ some pair.1)
  then .error ()
  else .ok ⟨dput m.source_arguments pair.1 pair.2,
            dput m.target_arguments pair.2 pair.1⟩

/-- The constructor `__init__` (lines 203-223): start from the empty
mapping and `add_pair` every element of the iterable in order. -/
def ofPairs
    (pairs : List (ConfigurationTaskArgument × ConfigurationTaskArgument)) :
    Except Unit ConfigurationTaskArgumentMapping :=
  pairs.foldlM add_pair empty

/-- Merge `self` with `other` (`merge`, lines 306-328): construct a new
mapping from the chained source items. -/
def merge (m other : ConfigurationTaskArgumentMapping) :
    Except Unit ConfigurationTaskArgumentMapping :=
  ofPairs (m.source_arguments ++ other.source_arguments)

/-- Merge a list of mappings (`merge_all`, lines 177-201). -/
def merge_all (mappings : List ConfigurationTaskArgumentMapping) :
    Except Unit ConfigurationTaskArgumentMapping :=
  ofPairs (mappings.flatMap (fun m => m.source_arguments))

/-- Invert the mapping (`invert`, lines 290-304): rebuild from the swapped
source pairs. -/
def invert (m : ConfigurationTaskArgumentMapping) :
    Except Unit ConfigurationTaskArgumentMapping :=
  ofPairs (m.source_arguments.map Prod.swap)

/-- All valid merged mappings from the cartesian product
(`all_combinations`, lines 141-175). Note the early return of the empty
set when the input list itself is empty. -/
def all_combinations (mappings : List (List ConfigurationTaskArgumentMapping)) :
    Finset ConfigurationTaskArgumentMapping :=
  if mappings = [] then ∅
  else (mappings.sections.filterMap
          (fun elements => (merge_all elements).toOption)).toFinset

end ConfigurationTaskArgumentMapping

/-- Structural well-formedness of a mapping as maintained by the code: the
target dictionary is the entry-wise swap of the source dictionary and both
key sets are duplicate-free. -/
def WFMapping (m : ConfigurationTaskArgumentMapping) : Prop :=
  m.target_arguments = m.source_arguments.map Prod.swap ∧
  (m.source_arguments.map Prod.fst).Nodup ∧
  (m.source_arguments.map Prod.snd).Nodup

/-- The spec's validity property for mappings: each direction round-trips
through the other (partial bijection). -/
def ValidMapping (m : ConfigurationTaskArgumentMapping) : Prop :=
  (∀ a b, dget m.source_arguments a = some b →
     dget m.target_arguments b = some a) ∧
  (∀ b a, dget m.target_arguments b = some a →
     dget m.source_arguments a = some b)

/-- A single pair conflicts with an existing mapping: its source argument
is already mapped to a different target, or its target argument is already
mapped from a different source. -/
def ConflictsWith (m : ConfigurationTaskArgumentMapping)
    (p : ConfigurationTaskArgument × ConfigurationTaskArgument) : Prop :=
  (∃ b', (p.1, b') ∈ m.source_arguments ∧ b' ≠ p.2) ∨
  (∃ a', (a', p.2) ∈ m.source_arguments ∧ a' ≠ p.1)

/-- The merge-conflict condition from the spec: some source argument maps
to two different targets, or some target argument is mapped from two
different sources. -/
def MergeConflict (m1 m2 : ConfigurationTaskArgumentMapping) : Prop :=
  (∃ a b b', (a, b) ∈ m1.source_arguments ∧ (a, b') ∈ m2.source_arguments ∧
     b ≠ b') ∨
  (∃ a a' b, (a, b) ∈ m1.source_arguments ∧ (a', b) ∈ m2.source_arguments ∧
     a ≠ a')

/-- Concrete arguments used in witness statements. -/
def argWA : ConfigurationTaskArgument := .ofValue ['a']

def argWB : ConfigurationTaskArgument := .ofValue ['b']

def argWC : ConfigurationTaskArgument := .ofValue ['c']

def argWD : ConfigurationTaskArgument := .ofValue ['d']

/-- The spec's description of `all_combinations`: for each element of the
Cartesian product of the inputs, merge all its elements, discard it on
`MatchingConflict`, and collect the survivors into a set. Note that the
Cartesian product of an empty list of collections contains exactly the
empty tuple, whose merge is the empty mapping. -/
def cartesianMergeSet
    (mappings : List (List ConfigurationTaskArgumentMapping)) :
    Finset ConfigurationTaskArgumentMapping :=
  (mappings.sections.filterMap
    (fun elements =>
      (ConfigurationTaskArgumentMapping.merge_all elements).toOption)).toFinset

/-- A part of a synthetic value: a literal string run or an argument
(`SyntheticValue.parts` elements, `classes.py` line 343). -/
inductive SVPart where
  | lit (s : Str)
  | arg (a : ConfigurationTaskArgument)
  deriving DecidableEq, Repr

/-- String form of a part (`str(part)` / `part.value`). -/
def SVPart.str : SVPart → Str
  | .lit s => s
  | .arg a => a.value

/-- Whether a part is a literal. -/
def SVPart.isLit : SVPart → Bool
  | .lit _ => true
  | .arg _ => false

/-- Python truthiness used by the `filter(lambda p: p, new_parts)` call:
empty literal strings are falsy, everything else is truthy. -/
def SVPart.truthy : SVPart → Bool
  | .lit s => ¬ s.isEmpty
  | .arg _ => true

/-- The arguments appearing in a parts list, in order of occurrence. -/
def argsInParts (parts : List SVPart) : List ConfigurationTaskArgument :=
  parts.filterMap (fun p => match p with
    | .arg a => some a
    | .lit _ => none)

/-- First occurrence of `sep` in a string: `some (before, after)` such
that the string is `before ++ sep ++ after` and `before` is shortest, or
`none` when `sep` does not occur (Python `str.partition`). -/
def firstOcc (sep : Str) : Str → Option (Str × Str)
  | [] => none
  | c :: rest =>
    if sep.isPrefixOf (c :: rest) then some ([], (c :: rest).drop sep.length)
    else
      match firstOcc sep rest with
      | some (pre, post) => some (c :: pre, post)
      | none => none

/-- Python `needle in hay` for strings. -/
def strContains (hay needle : Str) : Bool :=
  needle.isEmpty || (firstOcc needle hay).isSome

lemma firstOcc_eq {sep : Str} :
    ∀ {s pre post : Str}, firstOcc sep s = some (pre, post) →
      s = pre ++ sep ++ post := by
  intro s
  induction s with
  | nil => intro pre post h; simp [firstOcc] at h
  | cons c rest ih =>
    intro pre post h
    rw [firstOcc] at h
    by_cases hpre : sep.isPrefixOf (c :: rest)
    · rw [if_pos hpre] at h
      cases h
      have hp : sep <+: (c :: rest) := List.isPrefixOf_iff_prefix.mp hpre
      obtain ⟨tail, htail⟩ := hp
      simp only [List.nil_append]
      conv_lhs => rw [← htail]
      rw [← htail]
      rw [List.drop_left]
    · rw [if_neg hpre] at h
      cases hfo : firstOcc sep rest with
      | none => rw [hfo] at h; cases h
      | some pp =>
        obtain ⟨pre2, post2⟩ := pp
        rw [hfo] at h
        cases h
        have := ih hfo
        rw [this]
        simp

lemma firstOcc_post_lt {sep : Str} (hsep : sep ≠ []) :
    ∀ {s pre post : Str}, firstOcc sep s = some (pre, post) →
      post.length < s.length := by
  intro s pre post h
  have he := firstOcc_eq h
  rw [he]
  simp only [List.length_append]
  have : 0 < sep.length := List.length_pos.mpr hsep
  omega

/-- Split on every occurrence of `sep`, keeping empty pieces. The fuel
only bounds the recursion depth; every step consumes at least
`sep.length ≥ 1` characters, so the wrapper's `s.length + 1` is always
sufficient. -/
def splitAux (sep : Str) : Nat → Str → List Str
  | 0, s => [s]
  | fuel + 1, s =>
    match firstOcc sep s with
    | none => [s]
    | some (pre, post) => pre :: splitAux sep fuel post

/-- Split a string on every occurrence of `sep`, keeping empty pieces
(the repeated-`partition` loop of the constructor, lines 405-410). -/
def splitPieces (sep : Str) (s : Str) : List Str :=
  if sep.isEmpty then [s] else splitAux sep (s.length + 1) s

/-- Interleave an argument between split pieces: the `new_parts` built for
one literal part in the constructor loop. -/
def interleaveArg (a : ConfigurationTaskArgument) : List Str → List SVPart
  | [] => []
  | [s] => [.lit s]
  | s :: s2 :: rest => .lit s :: .arg a :: interleaveArg a (s2 :: rest)

/-- Split a single part on one argument: literal parts are split on every
occurrence of the argument value, argument parts pass through. -/
def splitPartOnArg (a : ConfigurationTaskArgument) (p : SVPart) :
    List SVPart :=
  match p with
  | .arg b => [.arg b]
  | .lit s => interleaveArg a (splitPieces a.value s)

/-- One round of the constructor loop (lines 397-411): split every part on
the argument, then drop falsy (empty-literal) parts. Arguments with empty
values are skipped. -/
def argRound (parts : List SVPart) (a : ConfigurationTaskArgument) :
    List SVPart :=
  if a.value = [] then parts
  else ((parts.map (splitPartOnArg a)).flatten).filter SVPart.truthy

/-- Length of the longest digit run at the head of a string. -/
def digitsLen (s : Str) : Nat := (s.takeWhile Char.isDigit).length

/-- Length of a match of the semver number pattern `0|[1-9]\d*` at the
head of a string, or 0 for no match. -/
def numLen : Str → Nat
  | [] => 0
  | c :: rest =>
    if c = '0' then 1
    else if c.isDigit then 1 + digitsLen rest
    else 0

/-- Whether a character may appear in a prerelease/build identifier
(`[0-9a-zA-Z-]`). -/
def identChar (c : Char) : Bool := c.isDigit || c.isAlpha || c = '-'

/-- Length of a match of the prerelease identifier pattern
`0|[1-9]\d*|\d*[a-zA-Z-][0-9a-zA-Z-]*` at the head of a string, with the
regex's ordered-alternation semantics. -/
def preIdentLen : Str → Nat
  | [] => 0
  | c :: rest =>
    if c = '0' then 1
    else if c.isDigit then 1 + digitsLen rest
    else if c.isAlpha || c = '-' then 1 + (rest.takeWhile identChar).length
    else 0

/-- Length of a match of the build identifier pattern `[0-9a-zA-Z-]+`. -/
def buildIdentLen (s : Str) : Nat := (s.takeWhile identChar).length

/-- Length matched by the `(?:\.ident)*` loop, for a given identifier
matcher. The fuel only bounds the recursion depth; every step consumes at
least two characters. -/
def dotListAux (f : Str → Nat) : Nat → Str → Nat
  | 0, _ => 0
  | _, [] => 0
  | fuel + 1, c :: rest =>
    if c = '.' then
      let k := f rest
      if 0 < k then 1 + k + dotListAux f fuel (rest.drop k)
      else 0
    else 0

/-- Length matched by the `(?:\.ident)*` loop. -/
def dotListLen (f : Str → Nat) (s : Str) : Nat :=
  dotListAux f (s.length + 1) s

/-- Length of the match of `VERSION_REGEX` (`classes.py` lines 36-45) at
the head of a string, or 0 when there is no match. Greedy matching with
optional groups falling back to the empty match, which coincides with the
regex's backtracking semantics for this pattern. -/
def versionLen (s : Str) : Nat :=
  let n1 := numLen s
  if n1 = 0 then 0
  else if (s.drop n1).head? ≠ some '.' then 0
  else
    let n2 := numLen (s.drop (n1 + 1))
    if n2 = 0 then 0
    else
      let base := n1 + 1 + n2
      let opt3 :=
        if (s.drop base).head? = some '.' ∧ 0 < numLen (s.drop (base + 1))
        then 1 + numLen (s.drop (base + 1)) else 0
      let base2 := base + opt3
      let optPre :=
        if (s.drop base2).head? = some '-' ∧
            0 < preIdentLen (s.drop (base2 + 1)) then
          let k := preIdentLen (s.drop (base2 + 1))
          1 + k + dotListLen preIdentLen (s.drop (base2 + 1 + k))
        else 0
      let base3 := base2 + optPre
      let optBuild :=
        if (s.drop base3).head? = some '+' ∧
            0 < buildIdentLen (s.drop (base3 + 1)) then
          let k := buildIdentLen (s.drop (base3 + 1))
          1 + k + dotListLen buildIdentLen (s.drop (base3 + 1 + k))
        else 0
      base3 + optBuild

/-- Scanner for `findall`: at each position try the version pattern, emit
the match and continue after it, otherwise advance one character. The
fuel only bounds the recursion depth; every step consumes at least one
character. -/
def findVersionsAux : Nat → Str → List Str
  | 0, _ => []
  | _, [] => []
  | fuel + 1, c :: rest =>
    let n := versionLen (c :: rest)
    if 0 < n then
      (c :: rest).take n :: findVersionsAux fuel ((c :: rest).drop n)
    else
      findVersionsAux fuel rest

/-- All matches of `VERSION_REGEX` in a string, left to right and
non-overlapping (`VERSION_REGEX.findall`; the pattern has no capture
groups so `findall` returns full matches). -/
def findVersions (s : Str) : List Str :=
  findVersionsAux (s.length + 1) s

/-- Stable insertion of an argument into a length-descending list. -/
def insertByLen (a : ConfigurationTaskArgument) :
    List ConfigurationTaskArgument → List ConfigurationTaskArgument
  | [] => [a]
  | b :: rest =>
    if b.value.length ≤ a.value.length then a :: b :: rest
    else b :: insertByLen a rest

/-- Stable sort by value length, descending
(`sorted(arguments, key=..., reverse=True)`, lines 387-391). -/
def sortByLenDesc : List ConfigurationTaskArgument →
    List ConfigurationTaskArgument
  | [] => []
  | a :: rest => insertByLen a (sortByLenDesc rest)

/-- Pool augmentation of the constructor (lines 363-384): add an argument
for every version-number match, then for every argument whose value
contains a dot add a slashed variant carrying the path-replacement
transformer when the slashed form occurs in the original value. The pool
is a list standing for one iteration order of the Python set; duplicates
collapse via `dedup`. -/
def augmentedPool (ov : Str) (pool : List ConfigurationTaskArgument) :
    List ConfigurationTaskArgument :=
  let base :=
    (pool ++ (findVersions ov).map ConfigurationTaskArgument.ofValue).dedup
  let slashed := base.filterMap (fun a =>
    if '.' ∈ a.value then
      let repl := a.value.map (fun c => if c = '.' then '/' else c)
      if strContains ov repl then
        some ⟨repl, .undoPathReplacement, some a.value⟩
      else none
    else none)
  (base ++ slashed).dedup

/-- A synthetic value (`SyntheticValue`, `classes.py` lines 331-417),
restricted to string originals, so `original_type` is constant and
omitted. -/
structure SyntheticValue where
  original_value : Str
  arguments : Finset ConfigurationTaskArgument
  parts : List SVPart
  deriving DecidableEq

/-- The `SyntheticValue` constructor (lines 345-417): augment the pool,
sort it by length descending, greedily split the original value on every
argument, and record the arguments actually used. -/
def SyntheticValue.ofPrimitive (ov : Str)
    (pool : List ConfigurationTaskArgument) : SyntheticValue :=
  let args := sortByLenDesc (augmentedPool ov pool)
  let parts0 : List SVPart := if ov = [] then [] else [.lit ov]
  let parts := args.foldl argRound parts0
  { original_value := ov
    arguments := (argsInParts parts).toFinset
    parts := parts }

/-- Substitution of one part through a mapping
(`mapping.source_arguments.get(part, part)` on argument parts, literals
pass through; lines 453-458). -/
def mapPart (m : ConfigurationTaskArgumentMapping) : SVPart → SVPart
  | .arg a =>
    match dget m.source_arguments a with
    | some b => SVPart.arg b
    | none => SVPart.arg a
  | .lit s => SVPart.lit s

/-- Substitution through a mapping (`SyntheticValue.from_mapping`, lines
429-476): each argument part is replaced by `mapping.source_arguments.get
(part, part)`, literals pass through; `original_value` and `arguments` are
recomputed from the new parts. -/
def SyntheticValue.from_mapping (v : SyntheticValue)
    (m : ConfigurationTaskArgumentMapping) : SyntheticValue :=
  let parts := v.parts.map (mapPart m)
  { original_value := parts.flatMap SVPart.str
    arguments := (argsInParts parts).toFinset
    parts := parts }

/-- A token of the flattened part sequence built by `map_to_primitive`
(lines 520-523): literal parts contribute their characters one by one,
argument parts contribute themselves. -/
inductive SVToken where
  | ch (c : Char)
  | arg (a : ConfigurationTaskArgument)
  deriving DecidableEq, Repr

/-- Flatten parts to the token sequence. -/
def flattenParts (parts : List SVPart) : List SVToken :=
  parts.flatMap (fun p => match p with
    | .lit s => s.map SVToken.ch
    | .arg a => [SVToken.arg a])

/-- First non-argument token of a token list, if any (the `next_idx`
scan of lines 592-596, re-indexed to the remaining token list). -/
def firstNonArg : List SVToken → Option SVToken
  | [] => none
  | .arg _ :: rest => firstNonArg rest
  | tok :: _ => some tok

/-- Python `str.rindex(c, start)` restricted to single characters: the
largest index `k ≥ start` with `t[k] = c`, if any. -/
def rindexFrom (t : Str) (c : Char) (start : Nat) : Option Nat :=
  ((List.range t.length).filter
    (fun k => start ≤ k ∧ t[k]? = some c)).getLast?

/-- The nondeterministic alignment search of `map_to_primitive` (lines
529-627). The explicit state stack of the code is rendered as recursion:
each state advances in lockstep over matching characters, then either
records its mapping (both sequences exhausted), prunes (one exhausted, a
literal mismatch, or an already-bound argument whose value is not
consumable), or unions the results of the successor states pushed for
every candidate span of the current argument. The `self_idx` cursor into
the token sequence is rendered structurally as the remaining token
list. -/
def mtpSearch (t : Str) : List SVToken → Nat →
    ConfigurationTaskArgumentMapping →
    Finset ConfigurationTaskArgumentMapping
  | [], j, m => if j = t.length then {m} else ∅
  | .ch c :: rest, j, m =>
    if t[j]? = some c then mtpSearch t rest (j + 1) m else ∅
  | .arg a :: rest, j, m =>
    if j = t.length then ∅
    else
      match dget m.source_arguments a with
      | some mapped =>
        if (t.drop j).take mapped.value.length = mapped.value then
          mtpSearch t rest (j + mapped.value.length) m
        else ∅
      | none =>
        let indices : List Nat :=
          match rest with
          | [] => [t.length]
          | .arg _ :: _ =>
            match firstNonArg rest with
            | some (.ch c) =>
              match rindexFrom t c j with
              | some r => List.range' j (r + 1 - j)
              | none => []
            | _ => List.range' j (t.length + 1 - j)
          | .ch c :: _ =>
            (List.range t.length).filter (fun k => j ≤ k ∧ t[k]? = some c)
        (indices.map (fun idx =>
          let nv := ConfigurationTaskArgument.ofValue
            ((t.drop j).take (idx - j))
          match m.merge ⟨[(a, nv)], [(nv, a)]⟩ with
          | .ok merged => mtpSearch t rest idx merged
          | .error _ => ∅)).foldr (· ∪ ·) ∅

/-- The identity mapping on the arguments of a parts list
(`ConfigurationTaskArgumentMapping((a, a) for a in self.arguments)`,
lines 508-512). The Python frozenset iteration order is immaterial for
the resulting dictionaries; we fix the order of occurrence in parts. -/
def identityOnArgs (parts : List SVPart) : ConfigurationTaskArgumentMapping :=
  let l := (argsInParts parts).dedup
  ⟨l.map (fun a => (a, a)), l.map (fun a => (a, a))⟩

/-- Match a synthetic value to a primitive (`map_to_primitive`, lines
478-627), restricted to string primitives so the `original_type` check
always passes. -/
def SyntheticValue.map_to_primitive (v : SyntheticValue) (other : Str) :
    Finset ConfigurationTaskArgumentMapping :=
  if v.original_value = other then {identityOnArgs v.parts}
  else if v.arguments = ∅ then ∅
  else mtpSearch other (flattenParts v.parts) 0
    ConfigurationTaskArgumentMapping.empty

/-- The spec's adjacency condition: two adjacent parts are never both
literals. -/
def NotBothLits (p q : SVPart) : Prop :=
  p.isLit = false ∨ q.isLit = false

/-- Structural soundness of a parts list with respect to an original
value: concatenation restores the original value, literal parts are
nonempty, and no two adjacent parts are both literals. -/
def GoodParts (ov : Str) (ps : List SVPart) : Prop :=
  ps.flatMap SVPart.str = ov ∧
  (∀ s, SVPart.lit s ∈ ps → s ≠ []) ∧
  List.Chain' NotBothLits ps

/-- Join pieces with a separator (the inverse of `splitPieces`). -/
def joinWith (sep : Str) : List Str → Str
  | [] => []
  | [x] => x
  | x :: rest => x ++ sep ++ joinWith sep rest

/-- The concrete argument `fox` from the spec's mapping-search scenario. -/
def argFox : ConfigurationTaskArgument := .ofValue "fox".toList

/-- The concrete argument `dog` from the spec's mapping-search scenario. -/
def argDog : ConfigurationTaskArgument := .ofValue "dog".toList

/-- The expected mapping shape of the mapping-search scenario:
`fox` to `x` and `dog` to `y`. -/
def mtpExpected (x y : String) : ConfigurationTaskArgumentMapping :=
  ⟨[(argFox, .ofValue x.toList), (argDog, .ofValue y.toList)],
   [(.ofValue x.toList, argFox), (.ofValue y.toList, argDog)]⟩

/-- Structural soundness of a synthetic value as established by every
construction path: the concatenation of the parts' string forms is the
original value and the argument set is the set of arguments occurring in
the parts. -/
def WFSyntheticValue (v : SyntheticValue) : Prop :=
  v.parts.flatMap SVPart.str = v.original_value ∧
  v.arguments = (argsInParts v.parts).toFinset

/-- Concrete synthetic value for witness statements: literal `x` followed
by the argument `a`. -/
def svWX : SyntheticValue := ⟨['x', 'a'], {argWA}, [.lit ['x'], .arg argWA]⟩

/-- Concrete mapping a to b for witness statements. -/
def mWAB : ConfigurationTaskArgumentMapping :=
  ⟨[(argWA, argWB)], [(argWB, argWA)]⟩

/-- Concrete mapping b to a for witness statements. -/
def mWBA : ConfigurationTaskArgumentMapping :=
  ⟨[(argWB, argWA)], [(argWA, argWB)]⟩

/-- A type of file content change (`FileContentChangeType`,
`classes.py` lines 1566-1570). -/
inductive FileContentChangeType where
  | addition
  | deletion
  deriving DecidableEq, Repr

/-- A change to text file contents (`FileContentChange`, lines
1573-1588). -/
structure FileContentChange where
  change_type : FileContentChangeType
  content : SyntheticValue
  deriving DecidableEq

/-- The closed sum of configuration-change variants (`ConfigurationChange`
subclasses, `classes.py` lines 1515-1617). -/
inductive ConfigurationChange where
  | directoryAdd (path : SyntheticValue)
  | directoryDelete (path : SyntheticValue)
  | envSet (key value : SyntheticValue)
  | envUnset (key : SyntheticValue)
  | fileAdd (path : SyntheticValue)
  | fileDelete (path : SyntheticValue)
  | fileChange (path : SyntheticValue) (changes : List FileContentChange)
  | serviceStart (name : SyntheticValue)
  | serviceStop (name : SyntheticValue)
  | symbolicLink (path link : SyntheticValue)
  | workingDirectorySet (path : SyntheticValue)
  deriving DecidableEq

/-- The variant tag of a change (`type(change)` used for binning). -/
inductive ChangeTag where
  | directoryAdd
  | directoryDelete
  | envSet
  | envUnset
  | fileAdd
  | fileDelete
  | fileChange
  | serviceStart
  | serviceStop
  | symbolicLink
  | workingDirectorySet
  deriving DecidableEq, Fintype, Repr

/-- Tag of a configuration change. -/
def changeTag : ConfigurationChange → ChangeTag
  | .directoryAdd _ => .directoryAdd
  | .directoryDelete _ => .directoryDelete
  | .envSet _ _ => .envSet
  | .envUnset _ => .envUnset
  | .fileAdd _ => .fileAdd
  | .fileDelete _ => .fileDelete
  | .fileChange _ _ => .fileChange
  | .serviceStart _ => .serviceStart
  | .serviceStop _ => .serviceStop
  | .symbolicLink _ _ => .symbolicLink
  | .workingDirectorySet _ => .workingDirectorySet

/-- The change types present in both sides after binning by variant
(`shared_types`, `classes.py` line 1297). -/
def sharedTags (source target : Finset ConfigurationChange) :
    Finset ChangeTag :=
  Finset.univ.filter (fun tg =>
    (source.filter (fun c => changeTag c = tg)).Nonempty ∧
    (target.filter (fun c => changeTag c = tg)).Nonempty)

/-- The number of pairs that would be mapped (`num_pairs`, lines
1299-1304): the sum over shared variants of the product of bin sizes. -/
def pairCount (source target : Finset ConfigurationChange) : Nat :=
  ∑ tg ∈ sharedTags source target,
    (source.filter (fun c => changeTag c = tg)).card *
    (target.filter (fun c => changeTag c = tg)).card

/-- The maximum intersection of configuration change sets
(`ConfigurationChange.change_intersection`, `classes.py` lines
1244-1487). The mapping-based mode (lines 1322-1487: per-pair mapping
with timeouts and multiprocessing, compatibility graph, bounded-time
maximum weighted clique) is parameterized as `mappingMode`; the early
returns for a zero pair count and for the exact mode are modelled
directly from the code. -/
def ConfigurationChange.change_intersection
    (mappingMode : Finset ConfigurationChange → Finset ConfigurationChange →
      Finset ConfigurationChange × Finset ConfigurationChange ×
        ConfigurationTaskArgumentMapping)
    (source target : Finset ConfigurationChange)
    (with_mapping : Option Bool) :
    Finset ConfigurationChange × Finset ConfigurationChange ×
      ConfigurationTaskArgumentMapping :=
  let num_pairs := pairCount source target
  if num_pairs = 0 then (∅, ∅, .empty)
  else if with_mapping = some false ∨
      (with_mapping = none ∧ 25000000 < num_pairs) then
    (source ∩ target, source ∩ target, .empty)
  else mappingMode source target

/-- Numeric rank of a transformer, for the serialization order chain. -/
def Transformer.rank : Transformer → Nat
  | .identity => 0
  | .undoPathReplacement => 1

/-- Lexicographic key of an optional pre-transform value. -/
def optStrRank : Option Str → Bool ×ₗ Str
  | none => toLex (false, [])
  | some s => toLex (true, s)

/-- Injective order key of an argument: value, then transformer rank,
then pre-transform value. Python compares arguments by `value` only; this
refinement is injective so it can canonically order sets, and it
coincides with the Python order whenever values differ. -/
def argKey (a : ConfigurationTaskArgument) :
    Str ×ₗ (Nat ×ₗ (Bool ×ₗ Str)) :=
  toLex (a.value, toLex (a.transformer.rank, optStrRank a.pre_transform_value))

instance : LinearOrder ConfigurationTaskArgument :=
  LinearOrder.lift' argKey
    (by
      intro a b h
      obtain ⟨v1, t1, p1⟩ := a
      obtain ⟨v2, t2, p2⟩ := b
      have h2 : (v1, (t1.rank, optStrRank p1)) =
          (v2, (t2.rank, optStrRank p2)) := h
      rw [Prod.mk.injEq, Prod.mk.injEq] at h2
      obtain ⟨hv, ht, hp⟩ := h2
      have ht2 : t1 = t2 := by
        cases t1 <;> cases t2 <;> first | rfl | simp [Transformer.rank] at ht
      have hp2 : p1 = p2 := by
        cases p1 with
        | none =>
          cases p2 with
          | none => rfl
          | some s2 =>
            have hp3 : ((false, ([] : Str)) : Bool × Str) = (true, s2) := hp
            simp at hp3
        | some s1 =>
          cases p2 with
          | none =>
            have hp3 : ((true, s1) : Bool × Str) = (false, []) := hp
            simp at hp3
          | some s2 =>
            have hp3 : ((true, s1) : Bool × Str) = (true, s2) := hp
            rw [Prod.mk.injEq] at hp3
            rw [hp3.2]
      rw [hv, ht2, hp2])

/-- Injective order key of a part: literals sort before arguments, then
by content. -/
def svPartKey : SVPart → Bool ×ₗ (Str ×ₗ ConfigurationTaskArgument)
  | .lit s => toLex (false, toLex (s, .ofValue []))
  | .arg a => toLex (true, toLex ([], a))

instance : LinearOrder SVPart :=
  LinearOrder.lift' svPartKey
    (by
      intro p q h
      cases p with
      | lit s1 =>
        cases q with
        | lit s2 =>
          simp only [svPartKey] at h
          have h2 : ((s1, ConfigurationTaskArgument.ofValue []) : _ × _) =
              (s2, ConfigurationTaskArgument.ofValue []) :=
            congrArg (fun x => ofLex (ofLex x).2) h
          rw [Prod.mk.injEq] at h2
          rw [h2.1]
        | arg a2 =>
          simp only [svPartKey] at h
          have h2 : false = true := congrArg (fun x => (ofLex x).1) h
          cases h2
      | arg a1 =>
        cases q with
        | lit s2 =>
          simp only [svPartKey] at h
          have h2 : true = false := congrArg (fun x => (ofLex x).1) h
          cases h2
        | arg a2 =>
          simp only [svPartKey] at h
          have h2 : ((([] : Str), a1) : _ × _) = ([], a2) :=
            congrArg (fun x => ofLex (ofLex x).2) h
          rw [Prod.mk.injEq] at h2
          rw [h2.2])

/-- The canonical sorted list of an argument set, used to order synthetic
values and to iterate argument pools deterministically. Computable via
`Quotient.lift` because sorted lists of permutations coincide. -/
def sortedArgList (s : Finset ConfigurationTaskArgument) :
    List ConfigurationTaskArgument :=
  Quotient.lift (fun l => List.insertionSort (· ≤ ·) l)
    (fun l1 l2 hp => List.eq_of_perm_of_sorted
      ((List.perm_insertionSort _ l1).trans
        (List.Perm.trans hp (List.perm_insertionSort _ l2).symm))
      (List.sorted_insertionSort _ l1) (List.sorted_insertionSort _ l2))
    s.val

/-- Synthetic values are ordered by original value, then argument set,
then parts — the Python dataclass comparison order with `original_type`
constant. -/
instance : LinearOrder SyntheticValue :=
  LinearOrder.lift'
    (fun v => toLex (v.original_value, toLex (sortedArgList v.arguments,
      v.parts)))
    (by
      have hval : ∀ s : Finset ConfigurationTaskArgument,
          (sortedArgList s : Multiset ConfigurationTaskArgument) = s.val := by
        intro s
        obtain ⟨val, nd⟩ := s
        induction val using Quotient.inductionOn with
        | h l => exact Quotient.sound (List.perm_insertionSort _ l)
      intro v w h
      obtain ⟨ov1, a1, p1⟩ := v
      obtain ⟨ov2, a2, p2⟩ := w
      have h2 : (ov1, (sortedArgList a1, p1)) =
          (ov2, (sortedArgList a2, p2)) := h
      rw [Prod.mk.injEq, Prod.mk.injEq] at h2
      obtain ⟨ho, ha, hp⟩ := h2
      have ha2 : a1 = a2 := Finset.val_injective
        ((hval a1).symm.trans ((congrArg _ ha).trans (hval a2)))
      rw [ho, ha2, hp])

/-- Numeric rank of a file content change type (`addition` sorts before
`deletion`, matching the string-enum order). -/
def FileContentChangeType.rank : FileContentChangeType → Nat
  | .addition => 0
  | .deletion => 1

/-- File content changes are ordered by change type, then content. -/
instance : LinearOrder FileContentChange :=
  LinearOrder.lift' (fun f => toLex (f.change_type.rank, f.content))
    (by
      intro f g h
      obtain ⟨t1, c1⟩ := f
      obtain ⟨t2, c2⟩ := g
      have h2 : (t1.rank, c1) = (t2.rank, c2) := h
      rw [Prod.mk.injEq] at h2
      have ht : t1 = t2 := by
        cases t1 <;> cases t2 <;>
          first | rfl | simp [FileContentChangeType.rank] at h2
      rw [ht, h2.2])

/-- The placeholder synthetic value used for unused key slots. -/
def dummySV : SyntheticValue := ⟨[], ∅, []⟩

/-- Injective sort key of a change, mirroring the Python ordering of
`DataclassWithSyntheticValues`: class name first (alphabetical rank),
then the comparison fields in definition order. -/
def changeKey (c : ConfigurationChange) :
    Nat ×ₗ (SyntheticValue ×ₗ (SyntheticValue ×ₗ List FileContentChange)) :=
  match c with
  | .directoryAdd p => toLex (0, toLex (p, toLex (dummySV, [])))
  | .directoryDelete p => toLex (1, toLex (p, toLex (dummySV, [])))
  | .envSet k v => toLex (2, toLex (k, toLex (v, [])))
  | .envUnset k => toLex (3, toLex (k, toLex (dummySV, [])))
  | .fileAdd p => toLex (4, toLex (p, toLex (dummySV, [])))
  | .fileChange p cs => toLex (5, toLex (p, toLex (dummySV, cs)))
  | .fileDelete p => toLex (6, toLex (p, toLex (dummySV, [])))
  | .serviceStart n => toLex (7, toLex (n, toLex (dummySV, [])))
  | .serviceStop n => toLex (8, toLex (n, toLex (dummySV, [])))
  | .symbolicLink p l => toLex (9, toLex (p, toLex (l, [])))
  | .workingDirectorySet p => toLex (10, toLex (p, toLex (dummySV, [])))

/-- Changes are linearly ordered by their key (the order used by
`sorted` in the JSON encoder). -/
instance : LinearOrder ConfigurationChange :=
  LinearOrder.lift' changeKey
    (by
      have hsplit : ∀ (n1 n2 : Nat) (x1 x2 y1 y2 : SyntheticValue)
          (z1 z2 : List FileContentChange),
          (toLex (n1, toLex (x1, toLex (y1, z1))) :
            Nat ×ₗ (SyntheticValue ×ₗ (SyntheticValue ×ₗ
              List FileContentChange))) =
            toLex (n2, toLex (x2, toLex (y2, z2))) →
          n1 = n2 ∧ x1 = x2 ∧ y1 = y2 ∧ z1 = z2 := by
        intro n1 n2 x1 x2 y1 y2 z1 z2 hh
        have hh2 : ((n1, (x1, (y1, z1))) :
            Nat × (SyntheticValue × (SyntheticValue ×
              List FileContentChange))) = (n2, (x2, (y2, z2))) := hh
        rw [Prod.mk.injEq, Prod.mk.injEq, Prod.mk.injEq] at hh2
        exact ⟨hh2.1, hh2.2.1, hh2.2.2.1, hh2.2.2.2⟩
      intro c1 c2 h
      cases c1 <;> cases c2 <;>
        (simp only [changeKey] at h
         obtain ⟨hn, hx, hy, hz⟩ := hsplit _ _ _ _ _ _ _ _ h
         first
           | omega
           | simp_all))

/-- Canonical sorted form of a list of changes (a `frozenset` of changes
is represented as its sorted duplicate-free list). -/
def changesSorted (l : List ConfigurationChange) :
    List ConfigurationChange :=
  List.insertionSort (· ≤ ·) l.dedup

/-- A configuration system (`ConfigurationSystem`, `classes.py` lines
48-54). -/
inductive ConfigurationSystem where
  | shell
  | docker
  | ansible
  deriving DecidableEq, Repr

/-- The string value of a configuration system (its `str`-enum value). -/
def ConfigurationSystem.value : ConfigurationSystem → Str
  | .shell => "shell".toList
  | .docker => "docker".toList
  | .ansible => "ansible".toList

/-- A node of the nested Ansible-style argument structure: a string leaf,
a sequence, or a string-keyed mapping. -/
inductive ArgNode where
  | leaf (s : Str)
  | arr (items : List ArgNode)
  | obj (entries : List (Str × ArgNode))

mutual

/-- Decidable equality for argument nodes (hand-written because the
derive handler does not support nested inductives). -/
def argNodeDecEq : (a b : ArgNode) → Decidable (a = b)
  | .leaf s1, .leaf s2 =>
    match decEq s1 s2 with
    | isTrue h => isTrue (by rw [h])
    | isFalse h => isFalse (fun hc => by cases hc; exact h rfl)
  | .leaf _, .arr _ => isFalse (fun hc => by cases hc)
  | .leaf _, .obj _ => isFalse (fun hc => by cases hc)
  | .arr _, .leaf _ => isFalse (fun hc => by cases hc)
  | .arr l1, .arr l2 =>
    match argNodeListDecEq l1 l2 with
    | isTrue h => isTrue (by rw [h])
    | isFalse h => isFalse (fun hc => by cases hc; exact h rfl)
  | .arr _, .obj _ => isFalse (fun hc => by cases hc)
  | .obj _, .leaf _ => isFalse (fun hc => by cases hc)
  | .obj _, .arr _ => isFalse (fun hc => by cases hc)
  | .obj e1, .obj e2 =>
    match argNodeEntriesDecEq e1 e2 with
    | isTrue h => isTrue (by rw [h])
    | isFalse h => isFalse (fun hc => by cases hc; exact h rfl)

/-- Decidable equality for lists of argument nodes. -/
def argNodeListDecEq : (a b : List ArgNode) → Decidable (a = b)
  | [], [] => isTrue rfl
  | [], _ :: _ => isFalse (fun hc => by cases hc)
  | _ :: _, [] => isFalse (fun hc => by cases hc)
  | a :: r1, b :: r2 =>
    match argNodeDecEq a b, argNodeListDecEq r1 r2 with
    | isTrue h1, isTrue h2 => isTrue (by rw [h1, h2])
    | isFalse h1, _ => isFalse (fun hc => by cases hc; exact h1 rfl)
    | _, isFalse h2 => isFalse (fun hc => by cases hc; exact h2 rfl)

/-- Decidable equality for entry lists of argument mapping nodes. -/
def argNodeEntriesDecEq : (a b : List (Str × ArgNode)) → Decidable (a = b)
  | [], [] => isTrue rfl
  | [], _ :: _ => isFalse (fun hc => by cases hc)
  | _ :: _, [] => isFalse (fun hc => by cases hc)
  | (k1, a) :: r1, (k2, b) :: r2 =>
    match decEq k1 k2, argNodeDecEq a b, argNodeEntriesDecEq r1 r2 with
    | isTrue hk, isTrue h1, isTrue h2 => isTrue (by rw [hk, h1, h2])
    | isFalse hk, _, _ => isFalse (fun hc => by cases hc; exact hk rfl)
    | _, isFalse h1, _ => isFalse (fun hc => by cases hc; exact h1 rfl)
    | _, _, isFalse h2 => isFalse (fun hc => by cases hc; exact h2 rfl)

end

instance : DecidableEq ArgNode := argNodeDecEq

/-- Task arguments: an ordered sequence of strings (shell/docker) or a
nested string-keyed mapping (ansible) — the `Union[tuple[str, ...],
frozendict]` of `ConfigurationTask.arguments`. -/
inductive TaskArguments where
  | seq (items : List Str)
  | dict (entries : List (Str × ArgNode))

instance : DecidableEq TaskArguments
  | .seq a, .seq b =>
    match decEq a b with
    | isTrue h => isTrue (by rw [h])
    | isFalse h => isFalse (fun hc => by cases hc; exact h rfl)
  | .seq _, .dict _ => isFalse (fun hc => by cases hc)
  | .dict _, .seq _ => isFalse (fun hc => by cases hc)
  | .dict a, .dict b =>
    match argNodeEntriesDecEq a b with
    | isTrue h => isTrue (by rw [h])
    | isFalse h => isFalse (fun hc => by cases hc; exact h rfl)

mutual

/-- All string leaves of an argument node (the stack walk of
`ConfigurationTask.__init__`, lines 660-672). -/
def argNodeLeaves : ArgNode → List Str
  | .leaf s => [s]
  | .arr items => argNodeListLeaves items
  | .obj entries => argNodeEntriesLeaves entries

/-- Leaves of a list of argument nodes. -/
def argNodeListLeaves : List ArgNode → List Str
  | [] => []
  | n :: rest => argNodeLeaves n ++ argNodeListLeaves rest

/-- Leaves of the entries of an argument mapping node. -/
def argNodeEntriesLeaves : List (Str × ArgNode) → List Str
  | [] => []
  | e :: rest => argNodeLeaves e.2 ++ argNodeEntriesLeaves rest

end

/-- The argument pool extracted from the task arguments, as a list in
traversal order with duplicates collapsed (the Python code builds a set;
`configuration_task_arguments`). -/
def extractPoolList : TaskArguments → List ConfigurationTaskArgument
  | .seq items => (items.map ConfigurationTaskArgument.ofValue).dedup
  | .dict entries =>
    ((argNodeEntriesLeaves entries).map
      ConfigurationTaskArgument.ofValue).dedup

/-- Re-lift a file content change over a new argument pool
(`from_arguments` via `from_primitives`). -/
def FileContentChange.from_arguments (fcc : FileContentChange)
    (pool : List ConfigurationTaskArgument) : FileContentChange :=
  ⟨fcc.change_type, SyntheticValue.ofPrimitive fcc.content.original_value pool⟩

/-- Map a file content change through an argument mapping. -/
def FileContentChange.from_mapping (fcc : FileContentChange)
    (m : ConfigurationTaskArgumentMapping) : FileContentChange :=
  ⟨fcc.change_type, fcc.content.from_mapping m⟩

/-- Re-lift a change over a new argument pool
(`DataclassWithSyntheticValues.from_arguments`, lines 954-980: every
synthetic field is rebuilt from its original value through
`from_primitives`, contained changes recursively). -/
def ConfigurationChange.from_arguments (c : ConfigurationChange)
    (pool : List ConfigurationTaskArgument) : ConfigurationChange :=
  match c with
  | .directoryAdd p => .directoryAdd (.ofPrimitive p.original_value pool)
  | .directoryDelete p => .directoryDelete (.ofPrimitive p.original_value pool)
  | .envSet k v =>
    .envSet (.ofPrimitive k.original_value pool)
      (.ofPrimitive v.original_value pool)
  | .envUnset k => .envUnset (.ofPrimitive k.original_value pool)
  | .fileAdd p => .fileAdd (.ofPrimitive p.original_value pool)
  | .fileDelete p => .fileDelete (.ofPrimitive p.original_value pool)
  | .fileChange p cs =>
    .fileChange (.ofPrimitive p.original_value pool)
      (cs.map (fun fcc => fcc.from_arguments pool))
  | .serviceStart n => .serviceStart (.ofPrimitive n.original_value pool)
  | .serviceStop n => .serviceStop (.ofPrimitive n.original_value pool)
  | .symbolicLink p l =>
    .symbolicLink (.ofPrimitive p.original_value pool)
      (.ofPrimitive l.original_value pool)
  | .workingDirectorySet p =>
    .workingDirectorySet (.ofPrimitive p.original_value pool)

/-- Map a change through an argument mapping
(`DataclassWithSyntheticValues.from_mapping`, lines 982-1020). -/
def ConfigurationChange.from_mapping (c : ConfigurationChange)
    (m : ConfigurationTaskArgumentMapping) : ConfigurationChange :=
  match c with
  | .directoryAdd p => .directoryAdd (p.from_mapping m)
  | .directoryDelete p => .directoryDelete (p.from_mapping m)
  | .envSet k v => .envSet (k.from_mapping m) (v.from_mapping m)
  | .envUnset k => .envUnset (k.from_mapping m)
  | .fileAdd p => .fileAdd (p.from_mapping m)
  | .fileDelete p => .fileDelete (p.from_mapping m)
  | .fileChange p cs =>
    .fileChange (p.from_mapping m) (cs.map (fun fcc => fcc.from_mapping m))
  | .serviceStart n => .serviceStart (n.from_mapping m)
  | .serviceStop n => .serviceStop (n.from_mapping m)
  | .symbolicLink p l => .symbolicLink (p.from_mapping m) (l.from_mapping m)
  | .workingDirectorySet p => .workingDirectorySet (p.from_mapping m)

/-- A configuration task (`ConfigurationTask`, `classes.py` lines
630-835). The `changes` frozenset is represented as its canonically
sorted duplicate-free list (every construction path canonicalizes, so
structural equality coincides with set equality).
`configuration_task_arguments` is set by the constructor and by
`from_mapping` but is not a dataclass comparison field in Python; it is
recomputed identically on both sides of every equality we state. -/
structure ConfigurationTask where
  system : ConfigurationSystem
  executable : Str
  arguments : TaskArguments
  changes : List ConfigurationChange
  configuration_task_arguments : Finset ConfigurationTaskArgument
  deriving DecidableEq

/-- The `ConfigurationTask` constructor (lines 644-689): extract the
argument pool from the literal arguments, then re-lift every change over
that pool. -/
def ConfigurationTask.init (system : ConfigurationSystem)
    (executable : Str) (arguments : TaskArguments)
    (changes : List ConfigurationChange) : ConfigurationTask :=
  let pool := extractPoolList arguments
  { system := system
    executable := executable
    arguments := arguments
    changes := changesSorted (changes.map (fun c => c.from_arguments pool))
    configuration_task_arguments := pool.toFinset }

/-- Rewrite one leaf string of a sequence-argument task through a mapping
(`ConfigurationTask.from_mapping`, lines 739-760): a leaf equal to a
mapped source argument becomes the stored source argument's transformer
applied to the mapped value; otherwise the first source argument whose
`pre_transform_value` equals the leaf rewrites it analogously; otherwise
the leaf passes through. Returns the new leaf and the arguments recorded
into `configuration_task_arguments`. A failed dictionary lookup
(`KeyError`) is `.error ()`. -/
def rewriteLeafSeq (m : ConfigurationTaskArgumentMapping) (v : Str) :
    Except Unit (Str × List ConfigurationTaskArgument) :=
  let arg := ConfigurationTaskArgument.ofValue v
  match dget m.source_arguments arg with
  | some mapped =>
    match dget m.target_arguments mapped with
    | some source_arg =>
      .ok (source_arg.transformer.apply mapped.value, [mapped])
    | none => .error ()
  | none =>
    match (m.source_arguments.map Prod.fst).find?
        (fun sa => sa.pre_transform_value = some v) with
    | some source_arg =>
      match dget m.source_arguments source_arg with
      | some mapped =>
        .ok (source_arg.transformer.apply mapped.value, [mapped])
      | none => .error ()
    | none => .ok (v, [arg])

/-- Rewrite one leaf of a mapping-argument task (lines 772-791). The
Python loop over `mapping.source_arguments` contains an unconditional
`break` after its first iteration, so only the first source argument is
consulted for a `pre_transform_value` match, and the for-else branch
(which records the leaf's own argument) only runs when the mapping is
empty. -/
def rewriteLeafDict (m : ConfigurationTaskArgumentMapping) (v : Str) :
    Except Unit (Str × List ConfigurationTaskArgument) :=
  let arg := ConfigurationTaskArgument.ofValue v
  match dget m.source_arguments arg with
  | some mapped =>
    match dget m.target_arguments mapped with
    | some source_arg =>
      .ok (source_arg.transformer.apply mapped.value, [mapped])
    | none => .error ()
  | none =>
    match m.source_arguments.head? with
    | none => .ok (v, [arg])
    | some (sa, _) =>
      if sa.pre_transform_value = some v then
        match dget m.source_arguments sa with
        | some mapped =>
          .ok (sa.transformer.apply mapped.value, [mapped])
        | none => .error ()
      else .ok (v, [])

/-- Rewrite every leaf of a sequence of argument strings. -/
def rewriteSeqValues (m : ConfigurationTaskArgumentMapping) :
    List Str → Except Unit (List Str × List ConfigurationTaskArgument)
  | [] => .ok ([], [])
  | v :: rest => do
    let (nv, args1) ← rewriteLeafSeq m v
    let (nrest, args2) ← rewriteSeqValues m rest
    .ok (nv :: nrest, args1 ++ args2)

mutual

/-- Rewrite all leaves of an argument node through a mapping. -/
def rewriteNode (m : ConfigurationTaskArgumentMapping) :
    ArgNode → Except Unit (ArgNode × List ConfigurationTaskArgument)
  | .leaf s => do
    let (ns, args) ← rewriteLeafDict m s
    .ok (.leaf ns, args)
  | .arr items => do
    let (nitems, args) ← rewriteNodeList m items
    .ok (.arr nitems, args)
  | .obj entries => do
    let (nentries, args) ← rewriteNodeEntries m entries
    .ok (.obj nentries, args)

/-- Rewrite a list of argument nodes. -/
def rewriteNodeList (m : ConfigurationTaskArgumentMapping) :
    List ArgNode → Except Unit (List ArgNode × List ConfigurationTaskArgument)
  | [] => .ok ([], [])
  | n :: rest => do
    let (nn, args1) ← rewriteNode m n
    let (nrest, args2) ← rewriteNodeList m rest
    .ok (nn :: nrest, args1 ++ args2)

/-- Rewrite the entries of a mapping node. -/
def rewriteNodeEntries (m : ConfigurationTaskArgumentMapping) :
    List (Str × ArgNode) →
    Except Unit (List (Str × ArgNode) × List ConfigurationTaskArgument)
  | [] => .ok ([], [])
  | (k, n) :: rest => do
    let (nn, args1) ← rewriteNode m n
    let (nrest, args2) ← rewriteNodeEntries m rest
    .ok ((k, nn) :: nrest, args1 ++ args2)

end

/-- Substitute task arguments through a mapping
(`ConfigurationTask.from_mapping`, lines 722-811): rewrite the literal
argument structure leaf by leaf, map every change, and keep `system` and
`executable` verbatim. -/
def ConfigurationTask.from_mapping (t : ConfigurationTask)
    (m : ConfigurationTaskArgumentMapping) :
    Except Unit ConfigurationTask :=
  match t.arguments with
  | .seq items => do
    let (nitems, args) ← rewriteSeqValues m items
    .ok { system := t.system
          executable := t.executable
          arguments := .seq nitems
          changes := changesSorted (t.changes.map (fun c => c.from_mapping m))
          configuration_task_arguments := args.toFinset }
  | .dict entries => do
    let (nentries, args) ← rewriteNodeEntries m entries
    .ok { system := t.system
          executable := t.executable
          arguments := .dict nentries
          changes := changesSorted (t.changes.map (fun c => c.from_mapping m))
          configuration_task_arguments := args.toFinset }

/-- A row of the knowledge base's `task_executions` table restricted to
the columns consulted by `get_configuration_tasks` (`knowledge_base.py`
lines 56-65; the `level` column is non-null with default 1). -/
structure TaskExecutionRow where
  system : ConfigurationSystem
  level : Nat
  task : ConfigurationTask

/-- The knowledge-base query for candidate tasks
(`get_configuration_tasks`, `knowledge_base.py` lines 184-224) together
with its `_with_tables` wrapper (lines 72-91). The backing store is
`none` when unreachable, in which case `metadata.create_all()` raises
`OperationalError` and the wrapper logs and re-raises (modelled as
`.error ()`); otherwise the distinct tasks filtered by system and level
are returned. -/
def get_configuration_tasks (store : Option (List TaskExecutionRow))
    (system : Option ConfigurationSystem) (level : Option Nat) :
    Except Unit (Finset ConfigurationTask) :=
  match store with
  | none => .error ()
  | some rows =>
    .ok (((rows.filter (fun r =>
        system.all (fun s => r.system = s) &&
        level.all (fun l => r.level = l))).map
      (fun r => r.task)).toFinset)

/-- Concrete task for witness statements: `shell rm file.txt`. -/
def taskW : ConfigurationTask :=
  ⟨.shell, "rm".toList, .seq ["file.txt".toList], [],
   {ConfigurationTaskArgument.ofValue "file.txt".toList}⟩

/-- A JSON value, restricted to the shapes produced by the Synth encoder
for tasks and changes (strings, arrays, string-keyed objects). The
encoder emits every object with its keys already sorted, mirroring
`json.dumps(..., sort_keys=True)`. -/
inductive Json where
  | str (s : Str)
  | arr (items : List Json)
  | obj (entries : List (Str × Json))

/-- Key-order relation used to sort object entries (`sort_keys=True`). -/
def jsonKeyLE (e1 e2 : Str × Json) : Prop := e1.1 ≤ e2.1

instance : DecidableRel jsonKeyLE := fun e1 e2 =>
  inferInstanceAs (Decidable (e1.1 ≤ e2.1))

/-- Key-order relation on argument-node entries. -/
def nodeKeyLE (e1 e2 : Str × ArgNode) : Prop := e1.1 ≤ e2.1

instance : DecidableRel nodeKeyLE := fun e1 e2 =>
  inferInstanceAs (Decidable (e1.1 ≤ e2.1))

mutual

/-- Encode an argument node: strings stay strings, sequences become
arrays, mappings become objects with sorted keys. -/
def encodeNode : ArgNode → Json
  | .leaf s => .str s
  | .arr items => .arr (encodeNodeList items)
  | .obj entries =>
    .obj (List.insertionSort jsonKeyLE (encodeNodeEntries entries))

/-- Encode a list of argument nodes. -/
def encodeNodeList : List ArgNode → List Json
  | [] => []
  | n :: rest => encodeNode n :: encodeNodeList rest

/-- Encode the entries of an argument mapping node. -/
def encodeNodeEntries : List (Str × ArgNode) → List (Str × Json)
  | [] => []
  | e :: rest => (e.1, encodeNode e.2) :: encodeNodeEntries rest

end

mutual

/-- Decode an argument node (the identity part of `from_dict` for plain
strings, lists and dicts inside task arguments). -/
def decodeNode : Json → Except Unit ArgNode
  | .str s => .ok (.leaf s)
  | .arr items => do
    let ns ← decodeNodeList items
    .ok (.arr ns)
  | .obj entries => do
    let ne ← decodeNodeEntries entries
    .ok (.obj ne)

/-- Decode a list of argument nodes. -/
def decodeNodeList : List Json → Except Unit (List ArgNode)
  | [] => .ok []
  | j :: rest => do
    let n ← decodeNode j
    let ns ← decodeNodeList rest
    .ok (n :: ns)

/-- Decode the entries of an argument mapping node. -/
def decodeNodeEntries : List (Str × Json) →
    Except Unit (List (Str × ArgNode))
  | [] => .ok []
  | (k, j) :: rest => do
    let n ← decodeNode j
    let ns ← decodeNodeEntries rest
    .ok ((k, n) :: ns)

end

mutual

/-- Whether an argument node is in canonical form: every contained
mapping has its entries sorted by key (the form in which a round trip
through sorted-keys JSON reproduces it verbatim). -/
def canonicalNodeB : ArgNode → Bool
  | .leaf _ => true
  | .arr items => canonicalNodeListB items
  | .obj entries =>
    decide (List.Pairwise nodeKeyLE entries) && canonicalEntriesB entries

/-- Canonical form of a list of nodes. -/
def canonicalNodeListB : List ArgNode → Bool
  | [] => true
  | n :: rest => canonicalNodeB n && canonicalNodeListB rest

/-- Canonical form of the values of an entry list. -/
def canonicalEntriesB : List (Str × ArgNode) → Bool
  | [] => true
  | e :: rest => canonicalNodeB e.2 && canonicalEntriesB rest

end

/-- Canonical form of task arguments: sequences always are; mappings must
be canonical nodes. -/
def canonicalArgsB : TaskArguments → Bool
  | .seq _ => true
  | .dict entries =>
    decide (List.Pairwise nodeKeyLE entries) && canonicalEntriesB entries

/-- The string value of a file content change type. -/
def fccTypeValue : FileContentChangeType → Str
  | .addition => "addition".toList
  | .deletion => "deletion".toList

/-- Decode a file content change type (`FileContentChangeType(value)`),
failing on unknown values. -/
def decodeFCCType (s : Str) : Except Unit FileContentChangeType :=
  if s = "addition".toList then .ok .addition
  else if s = "deletion".toList then .ok .deletion
  else .error ()

/-- Decode a configuration system (`ConfigurationSystem(value)`). -/
def decodeSystem (s : Str) : Except Unit ConfigurationSystem :=
  if s = "shell".toList then .ok .shell
  else if s = "docker".toList then .ok .docker
  else if s = "ansible".toList then .ok .ansible
  else .error ()

/-- Encode a file content change: the dataclass wrapper followed by its
fields with sorted keys; the synthetic content encodes as its original
value. -/
def encodeFCC (f : FileContentChange) : Json :=
  .obj [("type".toList, .str "FileContentChange".toList),
        ("value".toList, .obj
          [("change_type".toList, .str (fccTypeValue f.change_type)),
           ("content".toList, .str f.content.original_value)])]

/-- Decode a file content change from the wrapper shape: the enum field
is reconstructed through its constructor and the content through
`from_primitives` with an empty argument pool. -/
def decodeFCC : Json → Except Unit FileContentChange
  | .obj [(tk, .str tname), (vk, .obj [(k1, .str tv), (k2, .str cv)])] =>
    if tk = "type".toList ∧ tname = "FileContentChange".toList ∧
        vk = "value".toList ∧ k1 = "change_type".toList ∧
        k2 = "content".toList then do
      let t ← decodeFCCType tv
      .ok ⟨t, SyntheticValue.ofPrimitive cv []⟩
    else .error ()
  | _ => .error ()

/-- The Python class name of a change variant. -/
def changeTypeName : ConfigurationChange → Str
  | .directoryAdd _ => "DirectoryAdd".toList
  | .directoryDelete _ => "DirectoryDelete".toList
  | .envSet _ _ => "EnvSet".toList
  | .envUnset _ => "EnvUnset".toList
  | .fileAdd _ => "FileAdd".toList
  | .fileDelete _ => "FileDelete".toList
  | .fileChange _ _ => "FileChange".toList
  | .serviceStart _ => "ServiceStart".toList
  | .serviceStop _ => "ServiceStop".toList
  | .symbolicLink _ _ => "SymbolicLink".toList
  | .workingDirectorySet _ => "WorkingDirectorySet".toList

/-- Encode a change: the dataclass wrapper `{"type": ..., "value": ...}`
with field keys sorted; synthetic fields encode as their original values,
the `FileChange.changes` tuple as an array. -/
def encodeChange (c : ConfigurationChange) : Json :=
  .obj [("type".toList, .str (changeTypeName c)),
        ("value".toList, .obj (match c with
          | .directoryAdd p => [("path".toList, .str p.original_value)]
          | .directoryDelete p => [("path".toList, .str p.original_value)]
          | .envSet k v =>
            [("key".toList, .str k.original_value),
             ("value".toList, .str v.original_value)]
          | .envUnset k => [("key".toList, .str k.original_value)]
          | .fileAdd p => [("path".toList, .str p.original_value)]
          | .fileDelete p => [("path".toList, .str p.original_value)]
          | .fileChange p cs =>
            [("changes".toList, .arr (cs.map encodeFCC)),
             ("path".toList, .str p.original_value)]
          | .serviceStart n => [("name".toList, .str n.original_value)]
          | .serviceStop n => [("name".toList, .str n.original_value)]
          | .symbolicLink p l =>
            [("link".toList, .str l.original_value),
             ("path".toList, .str p.original_value)]
          | .workingDirectorySet p =>
            [("path".toList, .str p.original_value)]))]

/-- Decode a change from the wrapper shape (`from_dict` dispatching on
the `type` field): every synthetic field is rebuilt through
`from_primitives` with the empty argument pool; the `FileChange.changes`
array is converted element-wise and becomes a tuple. -/
def decodeChange : Json → Except Unit ConfigurationChange
  | .obj [(tk, .str tname), (vk, vjson)] =>
    if tk = "type".toList ∧ vk = "value".toList then
      if tname = "DirectoryAdd".toList then
        match vjson with
        | .obj [(k, .str pv)] =>
          if k = "path".toList then
            .ok (.directoryAdd (.ofPrimitive pv []))
          else .error ()
        | _ => .error ()
      else if tname = "DirectoryDelete".toList then
        match vjson with
        | .obj [(k, .str pv)] =>
          if k = "path".toList then
            .ok (.directoryDelete (.ofPrimitive pv []))
          else .error ()
        | _ => .error ()
      else if tname = "EnvSet".toList then
        match vjson with
        | .obj [(k1, .str kv), (k2, .str vv)] =>
          if k1 = "key".toList ∧ k2 = "value".toList then
            .ok (.envSet (.ofPrimitive kv []) (.ofPrimitive vv []))
          else .error ()
        | _ => .error ()
      else if tname = "EnvUnset".toList then
        match vjson with
        | .obj [(k, .str kv)] =>
          if k = "key".toList then
            .ok (.envUnset (.ofPrimitive kv []))
          else .error ()
        | _ => .error ()
      else if tname = "FileAdd".toList then
        match vjson with
        | .obj [(k, .str pv)] =>
          if k = "path".toList then
            .ok (.fileAdd (.ofPrimitive pv []))
          else .error ()
        | _ => .error ()
      else if tname = "FileDelete".toList then
        match vjson with
        | .obj [(k, .str pv)] =>
          if k = "path".toList then
            .ok (.fileDelete (.ofPrimitive pv []))
          else .error ()
        | _ => .error ()
      else if tname = "FileChange".toList then
        match vjson with
        | .obj [(kc, .arr fccjs), (kp, .str pv)] =>
          if kc = "changes".toList ∧ kp = "path".toList then do
            let fccs ← fccjs.mapM decodeFCC
            .ok (.fileChange (.ofPrimitive pv []) fccs)
          else .error ()
        | _ => .error ()
      else if tname = "ServiceStart".toList then
        match vjson with
        | .obj [(k, .str nv)] =>
          if k = "name".toList then
            .ok (.serviceStart (.ofPrimitive nv []))
          else .error ()
        | _ => .error ()
      else if tname = "ServiceStop".toList then
        match vjson with
        | .obj [(k, .str nv)] =>
          if k = "name".toList then
            .ok (.serviceStop (.ofPrimitive nv []))
          else .error ()
        | _ => .error ()
      else if tname = "SymbolicLink".toList then
        match vjson with
        | .obj [(kl, .str lv), (kp, .str pv)] =>
          if kl = "link".toList ∧ kp = "path".toList then
            .ok (.symbolicLink (.ofPrimitive pv []) (.ofPrimitive lv []))
          else .error ()
        | _ => .error ()
      else if tname = "WorkingDirectorySet".toList then
        match vjson with
        | .obj [(k, .str pv)] =>
          if k = "path".toList then
            .ok (.workingDirectorySet (.ofPrimitive pv []))
          else .error ()
        | _ => .error ()
      else .error ()
    else .error ()
  | _ => .error ()

/-- Encode task arguments: a sequence becomes an array of strings, a
mapping becomes an object with sorted keys. -/
def encodeArguments : TaskArguments → Json
  | .seq items => .arr (items.map Json.str)
  | .dict entries =>
    .obj (List.insertionSort jsonKeyLE (encodeNodeEntries entries))

/-- Decode a list of plain strings. -/
def decodeStrList : List Json → Except Unit (List Str)
  | [] => .ok []
  | .str s :: rest => do
    let ss ← decodeStrList rest
    .ok (s :: ss)
  | _ => .error ()

/-- Decode task arguments: a JSON array becomes a tuple of strings, a
JSON object becomes a frozendict. -/
def decodeArguments : Json → Except Unit TaskArguments
  | .arr items => do
    let ss ← decodeStrList items
    .ok (.seq ss)
  | .obj entries => do
    let ne ← decodeNodeEntries entries
    .ok (.dict ne)
  | _ => .error ()

/-- Encode a configuration task: the dataclass wrapper with field keys
sorted; the change set as a sorted array; the system enum as its string
value. -/
def encodeTask (t : ConfigurationTask) : Json :=
  .obj [("type".toList, .str "ConfigurationTask".toList),
        ("value".toList, .obj
          [("arguments".toList, encodeArguments t.arguments),
           ("changes".toList, .arr (t.changes.map encodeChange)),
           ("executable".toList, .str t.executable),
           ("system".toList, .str t.system.value)])]

/-- Decode a configuration task: decode the fields (system through the
enum constructor, arguments through the `Union` scan, changes
element-wise) and run the `ConfigurationTask` constructor, which
re-extracts the pool and re-lifts the changes. -/
def decodeTask : Json → Except Unit ConfigurationTask
  | .obj [(tk, .str tname), (vk, .obj
      [(ka, aj), (kc, .arr cjs), (ke, .str exe), (ks, .str sysv)])] =>
    if tk = "type".toList ∧ tname = "ConfigurationTask".toList ∧
        vk = "value".toList ∧ ka = "arguments".toList ∧
        kc = "changes".toList ∧ ke = "executable".toList ∧
        ks = "system".toList then do
      let sys ← decodeSystem sysv
      let args ← decodeArguments aj
      let cs ← cjs.mapM decodeChange
      .ok (ConfigurationTask.init sys exe args cs)
    else .error ()
  | _ => .error ()

/-- The escaping of `json.dumps` restricted to the quote and backslash
characters. -/
def escapeStr (s : Str) : Str :=
  s.flatMap (fun c => if c = '"' ∨ c = '\\' then ['\\', c] else [c])

mutual

/-- Render a JSON value to its byte string, with the default `json.dumps`
separators; object keys are emitted in entry order (the encoder already
sorts them). -/
def renderJson : Json → Str
  | .str s => '"' :: (escapeStr s ++ ['"'])
  | .arr items => '[' :: (renderList items ++ [']'])
  | .obj entries =>
    Char.ofNat 123 :: (renderEntries entries ++ [Char.ofNat 125])

/-- Render array items, comma-separated. -/
def renderList : List Json → Str
  | [] => []
  | [j] => renderJson j
  | j :: j2 :: rest => renderJson j ++ ", ".toList ++ renderList (j2 :: rest)

/-- Render object entries, comma-separated with colon key separators. -/
def renderEntries : List (Str × Json) → Str
  | [] => []
  | [(k, j)] =>
    ('"' :: (escapeStr k ++ ['"'])) ++ ": ".toList ++ renderJson j
  | (k, j) :: e2 :: rest =>
    ('"' :: (escapeStr k ++ ['"'])) ++ ": ".toList ++ renderJson j ++
      ", ".toList ++ renderEntries (e2 :: rest)

end

-- ### MODEL-DEFINITIONS-CONTINUE-HERE

section MappingLemmas

open ConfigurationTaskArgumentMapping

lemma dget_nil (a : ConfigurationTaskArgument) : dget [] a = none := rfl

lemma dget_cons (p : ConfigurationTaskArgument × ConfigurationTaskArgument)
    (tl : ArgDict) (a : ConfigurationTaskArgument) :
    dget (p :: tl) a = if p.1 = a then some p.2 else dget tl a := by
  by_cases h : p.1 = a
  · rw [dget, List.find?_cons_of_pos _ (by simpa using h)]
    simp [h]
  · rw [dget, List.find?_cons_of_neg _ (by simpa using h)]
    simp [h, dget]

lemma dget_eq_some_of_mem {d : ArgDict} {a b : ConfigurationTaskArgument}
    (hnd : (d.map Prod.fst).Nodup) (hmem : (a, b) ∈ d) :
    dget d a = some b := by
  induction d with
  | nil => cases hmem
  | cons p tl ih =>
    simp only [List.map_cons, List.nodup_cons] at hnd
    rw [dget_cons]
    rcases List.mem_cons.mp hmem with h | h
    · subst h
      simp
    · by_cases hpa : p.1 = a
      · exact absurd (hpa ▸ (List.mem_map.mpr ⟨_, h, rfl⟩)) hnd.1
      · rw [if_neg hpa]
        exact ih hnd.2 h

lemma mem_of_dget_eq_some {d : ArgDict} {a b : ConfigurationTaskArgument}
    (h : dget d a = some b) : (a, b) ∈ d := by
  induction d with
  | nil => simp [dget_nil] at h
  | cons p tl ih =>
    rw [dget_cons] at h
    by_cases hpa : p.1 = a
    · rw [if_pos hpa] at h
      cases h
      cases p
      cases hpa
      exact List.mem_cons_self _ _
    · rw [if_neg hpa] at h
      exact List.mem_cons_of_mem _ (ih h)

lemma dget_none_iff {d : ArgDict} {a : ConfigurationTaskArgument} :
    dget d a = none ↔ a ∉ d.map Prod.fst := by
  induction d with
  | nil => simp [dget_nil]
  | cons p tl ih =>
    rw [dget_cons]
    by_cases hpa : p.1 = a
    · simp [hpa]
    · simp only [if_neg hpa, List.map_cons, List.mem_cons, ih]
      constructor
      · intro h hc
        rcases hc with hc | hc
        · exact hpa hc.symm
        · exact h hc
      · intro h hc
        exact h (Or.inr hc)

lemma dget_isSome_iff {d : ArgDict} {a : ConfigurationTaskArgument} :
    (dget d a).isSome ↔ a ∈ d.map Prod.fst := by
  constructor
  · intro h
    cases hg : dget d a with
    | none => rw [hg] at h; simp at h
    | some b => exact List.mem_map.mpr ⟨(a, b), mem_of_dget_eq_some hg, rfl⟩
  · intro h
    cases hg : dget d a with
    | some b => simp
    | none => exact absurd h (dget_none_iff.mp hg)

lemma dput_of_not_mem {d : ArgDict} {a : ConfigurationTaskArgument}
    (h : a ∉ d.map Prod.fst) (b : ConfigurationTaskArgument) :
    dput d a b = d ++ [(a, b)] := by
  have hfind : d.find? (fun p => p.1 = a) = none := by
    rw [List.find?_eq_none]
    intro p hp hpa
    exact h (List.mem_map.mpr ⟨p, hp, by simpa using hpa⟩)
  simp [dput, hfind]

lemma dput_of_mem {d : ArgDict} {a b : ConfigurationTaskArgument}
    (hnd : (d.map Prod.fst).Nodup) (hmem : (a, b) ∈ d) :
    dput d a b = d := by
  have hfind : (d.find? (fun p => p.1 = a)).isSome := by
    have hdg := dget_eq_some_of_mem hnd hmem
    rw [dget] at hdg
    cases hf : d.find? (fun p => p.1 = a) with
    | none => rw [hf] at hdg; simp at hdg
    | some q => simp
  rw [dput, if_pos hfind]
  have hpt : ∀ p ∈ d, (if p.1 = a then (p.1, b) else p) = p := by
    intro p hp
    by_cases hpa : p.1 = a
    · have hmem2 : (a, p.2) ∈ d := by
        cases p
        cases hpa
        exact hp
      have hdg := dget_eq_some_of_mem hnd hmem
      have hdg2 := dget_eq_some_of_mem hnd hmem2
      rw [hdg] at hdg2
      cases hdg2
      cases p
      cases hpa
      simp
    · simp [hpa]
  calc d.map (fun p => if p.1 = a then (p.1, b) else p)
      = d.map id := List.map_congr_left (fun p hp => by simpa using hpt p hp)
    _ = d := List.map_id d

lemma mem_map_swap {s : ArgDict} {a b : ConfigurationTaskArgument} :
    (b, a) ∈ s.map Prod.swap ↔ (a, b) ∈ s := by
  constructor
  · intro h
    obtain ⟨p, hp, hpe⟩ := List.mem_map.mp h
    cases p
    cases hpe
    exact hp
  · intro h
    exact List.mem_map.mpr ⟨(a, b), h, rfl⟩

lemma map_fst_map_swap (s : ArgDict) :
    (s.map Prod.swap).map Prod.fst = s.map Prod.snd := by
  simp [List.map_map]

lemma map_snd_map_swap (s : ArgDict) :
    (s.map Prod.swap).map Prod.snd = s.map Prod.fst := by
  simp [List.map_map]

lemma wf_empty : WFMapping ConfigurationTaskArgumentMapping.empty :=
  ⟨rfl, List.nodup_nil, List.nodup_nil⟩

lemma wf_target_keys {m : ConfigurationTaskArgumentMapping}
    (hWF : WFMapping m) : (m.target_arguments.map Prod.fst).Nodup := by
  rw [hWF.1, map_fst_map_swap]
  exact hWF.2.2

lemma dget_target_eq_some_iff {m : ConfigurationTaskArgumentMapping}
    (hWF : WFMapping m) {a b : ConfigurationTaskArgument} :
    dget m.target_arguments b = some a ↔ (a, b) ∈ m.source_arguments := by
  constructor
  · intro h
    have := mem_of_dget_eq_some h
    rw [hWF.1] at this
    exact mem_map_swap.mp this
  · intro h
    exact dget_eq_some_of_mem (wf_target_keys hWF)
      (by rw [hWF.1]; exact mem_map_swap.mpr h)

lemma dget_target_none_iff {m : ConfigurationTaskArgumentMapping}
    (hWF : WFMapping m) {b : ConfigurationTaskArgument} :
    dget m.target_arguments b = none ↔ b ∉ m.source_arguments.map Prod.snd := by
  rw [dget_none_iff, hWF.1, map_fst_map_swap]

lemma add_pair_ok_of_mem {m : ConfigurationTaskArgumentMapping}
    (hWF : WFMapping m) {a b : ConfigurationTaskArgument}
    (hmem : (a, b) ∈ m.source_arguments) :
    m.add_pair (a, b) = .ok m := by
  have hsa : dget m.source_arguments a = some b :=
    dget_eq_some_of_mem hWF.2.1 hmem
  have htb : dget m.target_arguments b = some a :=
    (dget_target_eq_some_iff hWF).mpr hmem
  rw [ConfigurationTaskArgumentMapping.add_pair]
  simp only [hsa, htb]
  rw [if_neg (by simp)]
  rw [dput_of_mem hWF.2.1 hmem,
      dput_of_mem (wf_target_keys hWF)
        (by rw [hWF.1]; exact mem_map_swap.mpr hmem)]

lemma add_pair_ok_of_fresh {m : ConfigurationTaskArgumentMapping}
    (hWF : WFMapping m) {a b : ConfigurationTaskArgument}
    (ha : a ∉ m.source_arguments.map Prod.fst)
    (hb : b ∉ m.source_arguments.map Prod.snd) :
    m.add_pair (a, b) =
      .ok ⟨m.source_arguments ++ [(a, b)],
           m.target_arguments ++ [(b, a)]⟩ := by
  have hsa : dget m.source_arguments a = none := dget_none_iff.mpr ha
  have htb : dget m.target_arguments b = none :=
    (dget_target_none_iff hWF).mpr hb
  rw [ConfigurationTaskArgumentMapping.add_pair]
  simp only [hsa, htb]
  rw [if_neg (by simp)]
  rw [dput_of_not_mem ha, dput_of_not_mem (by
    intro hc
    rw [hWF.1, map_fst_map_swap] at hc
    exact hb hc)]

lemma wf_append_fresh {m : ConfigurationTaskArgumentMapping}
    (hWF : WFMapping m) {a b : ConfigurationTaskArgument}
    (ha : a ∉ m.source_arguments.map Prod.fst)
    (hb : b ∉ m.source_arguments.map Prod.snd) :
    WFMapping ⟨m.source_arguments ++ [(a, b)],
               m.target_arguments ++ [(b, a)]⟩ := by
  refine ⟨?_, ?_, ?_⟩
  · simp only [List.map_append, hWF.1]
    rfl
  · simp only [List.map_append, List.nodup_append, List.map_cons, List.map_nil]
    exact ⟨hWF.2.1, List.nodup_singleton a, by simpa using ha⟩
  · simp only [List.map_append, List.nodup_append, List.map_cons, List.map_nil]
    exact ⟨hWF.2.2, List.nodup_singleton b, by simpa using hb⟩

lemma add_pair_error_of_source_conflict {m : ConfigurationTaskArgumentMapping}
    (hWF : WFMapping m) {a b b' : ConfigurationTaskArgument}
    (hmem : (a, b') ∈ m.source_arguments) (hne : b' ≠ b) :
    m.add_pair (a, b) = .error () := by
  have hsa : dget m.source_arguments a = some b' :=
    dget_eq_some_of_mem hWF.2.1 hmem
  rw [ConfigurationTaskArgumentMapping.add_pair]
  simp only [hsa]
  rw [if_pos (Or.inl ⟨by simp, by simpa using hne⟩)]

lemma add_pair_error_of_target_conflict {m : ConfigurationTaskArgumentMapping}
    (hWF : WFMapping m) {a a' b : ConfigurationTaskArgument}
    (hmem : (a', b) ∈ m.source_arguments) (hne : a' ≠ a) :
    m.add_pair (a, b) = .error () := by
  have htb : dget m.target_arguments b = some a' :=
    (dget_target_eq_some_iff hWF).mpr hmem
  rw [ConfigurationTaskArgumentMapping.add_pair]
  simp only [htb]
  rw [if_pos (Or.inr ⟨by simp, by simpa using hne⟩)]

lemma add_pair_ok_elim {m m' : ConfigurationTaskArgumentMapping}
    (hWF : WFMapping m) {a b : ConfigurationTaskArgument}
    (h : m.add_pair (a, b) = .ok m') :
    (m' = m ∧ (a, b) ∈ m.source_arguments) ∨
    (a ∉ m.source_arguments.map Prod.fst ∧
     b ∉ m.source_arguments.map Prod.snd ∧
     m' = ⟨m.source_arguments ++ [(a, b)],
           m.target_arguments ++ [(b, a)]⟩) := by
  cases hsa : dget m.source_arguments a with
  | some b2 =>
    by_cases hbb : b2 = b
    · subst hbb
      have hmem := mem_of_dget_eq_some hsa
      rw [add_pair_ok_of_mem hWF hmem] at h
      cases h
      exact Or.inl ⟨rfl, hmem⟩
    · rw [add_pair_error_of_source_conflict hWF (mem_of_dget_eq_some hsa)
        hbb] at h
      cases h
  | none =>
    cases htb : dget m.target_arguments b with
    | some a2 =>
      have hmem := (dget_target_eq_some_iff hWF).mp htb
      by_cases haa : a2 = a
      · subst haa
        rw [dget_eq_some_of_mem hWF.2.1 hmem] at hsa
        cases hsa
      · rw [add_pair_error_of_target_conflict hWF hmem haa] at h
        cases h
    | none =>
      have ha := dget_none_iff.mp hsa
      have hb := (dget_target_none_iff hWF).mp htb
      rw [add_pair_ok_of_fresh hWF ha hb] at h
      cases h
      exact Or.inr ⟨ha, hb, rfl⟩

lemma add_pair_ok_wf {m m' : ConfigurationTaskArgumentMapping}
    (hWF : WFMapping m)
    {p : ConfigurationTaskArgument × ConfigurationTaskArgument}
    (h : m.add_pair p = .ok m') :
    WFMapping m' ∧
      (∀ q, q ∈ m'.source_arguments ↔ q ∈ m.source_arguments ∨ q = p) := by
  obtain ⟨a, b⟩ := p
  rcases add_pair_ok_elim hWF h with ⟨he, hmem⟩ | ⟨ha, hb, he⟩
  · subst he
    refine ⟨hWF, fun q => ?_⟩
    constructor
    · exact fun hq => Or.inl hq
    · rintro (hq | hq)
      · exact hq
      · exact hq ▸ hmem
  · subst he
    refine ⟨wf_append_fresh hWF ha hb, fun q => ?_⟩
    simp [List.mem_append]

lemma foldl_add_pair_wf
    (l : List (ConfigurationTaskArgument × ConfigurationTaskArgument)) :
    ∀ m0 : ConfigurationTaskArgumentMapping, WFMapping m0 →
    ∀ m, l.foldlM ConfigurationTaskArgumentMapping.add_pair m0 = .ok m →
    WFMapping m ∧
      (∀ q, q ∈ m.source_arguments ↔ q ∈ m0.source_arguments ∨ q ∈ l) := by
  induction l with
  | nil =>
    intro m0 hWF m hfold
    rw [List.foldlM_nil] at hfold
    cases hfold
    exact ⟨hWF, fun q => by simp⟩
  | cons p tl ih =>
    intro m0 hWF m hfold
    rw [List.foldlM_cons] at hfold
    cases hap : m0.add_pair p with
    | error e => rw [hap] at hfold; cases hfold
    | ok m1 =>
      rw [hap] at hfold
      obtain ⟨hWF1, hmem1⟩ := add_pair_ok_wf hWF hap
      obtain ⟨hWFm, hmemm⟩ := ih m1 hWF1 m hfold
      refine ⟨hWFm, fun q => ?_⟩
      rw [hmemm q, hmem1 q]
      constructor
      · rintro ((h | h) | h)
        · exact Or.inl h
        · exact Or.inr (by rw [h]; exact List.mem_cons_self p tl)
        · exact Or.inr (List.mem_cons_of_mem _ h)
      · rintro (h | h)
        · exact Or.inl (Or.inl h)
        · rcases List.mem_cons.mp h with h | h
          · exact Or.inl (Or.inr h)
          · exact Or.inr h

lemma ofPairs_wf
    {l : List (ConfigurationTaskArgument × ConfigurationTaskArgument)}
    {m : ConfigurationTaskArgumentMapping}
    (h : ConfigurationTaskArgumentMapping.ofPairs l = .ok m) :
    WFMapping m ∧ (∀ q, q ∈ m.source_arguments ↔ q ∈ l) := by
  obtain ⟨hWF, hmem⟩ := foldl_add_pair_wf l _ wf_empty m h
  refine ⟨hWF, fun q => ?_⟩
  rw [hmem q]
  simp [ConfigurationTaskArgumentMapping.empty]

lemma valid_of_wf {m : ConfigurationTaskArgumentMapping}
    (hWF : WFMapping m) : ValidMapping m := by
  constructor
  · intro a b h
    exact (dget_target_eq_some_iff hWF).mpr (mem_of_dget_eq_some h)
  · intro b a h
    exact dget_eq_some_of_mem hWF.2.1 ((dget_target_eq_some_iff hWF).mp h)

lemma ofPairs_rebuild
    (s : List (ConfigurationTaskArgument × ConfigurationTaskArgument))
    (hk : (s.map Prod.fst).Nodup) (hv : (s.map Prod.snd).Nodup) :
    ConfigurationTaskArgumentMapping.ofPairs s = .ok ⟨s, s.map Prod.swap⟩ := by
  induction s using List.reverseRecOn with
  | nil => rfl
  | append_singleton s p ih =>
    obtain ⟨a, b⟩ := p
    simp only [List.map_append, List.map_cons, List.map_nil] at hk hv
    have hks : (s.map Prod.fst).Nodup := (List.nodup_append.mp hk).1
    have hvs : (s.map Prod.snd).Nodup := (List.nodup_append.mp hv).1
    have hka : a ∉ s.map Prod.fst := by
      have hd := (List.nodup_append.mp hk).2.2
      intro hc
      exact hd hc (List.mem_singleton_self a)
    have hvb : b ∉ s.map Prod.snd := by
      have hd := (List.nodup_append.mp hv).2.2
      intro hc
      exact hd hc (List.mem_singleton_self b)
    rw [ConfigurationTaskArgumentMapping.ofPairs, List.foldlM_append]
    rw [ConfigurationTaskArgumentMapping.ofPairs] at ih
    rw [ih hks hvs]
    show List.foldlM _ _ _ = _
    rw [List.foldlM_cons,
        add_pair_ok_of_fresh ⟨rfl, hks, hvs⟩ hka hvb]
    show List.foldlM _ _ _ = _
    rw [List.foldlM_nil]
    show Except.ok _ = _
    rw [List.map_append]
    rfl

lemma mapping_eta {m : ConfigurationTaskArgumentMapping}
    (hWF : WFMapping m) :
    m = ⟨m.source_arguments, m.source_arguments.map Prod.swap⟩ := by
  cases m
  simp only at hWF ⊢
  rw [← hWF.1]

lemma merge_eq_foldl {m1 m2 : ConfigurationTaskArgumentMapping}
    (hWF1 : WFMapping m1) :
    m1.merge m2 =
      m2.source_arguments.foldlM ConfigurationTaskArgumentMapping.add_pair
        m1 := by
  rw [ConfigurationTaskArgumentMapping.merge,
      ConfigurationTaskArgumentMapping.ofPairs, List.foldlM_append]
  have hre := ofPairs_rebuild m1.source_arguments hWF1.2.1 hWF1.2.2
  rw [ConfigurationTaskArgumentMapping.ofPairs] at hre
  rw [hre, ← mapping_eta hWF1]
  rfl

lemma compat_add_pair_ok {m : ConfigurationTaskArgumentMapping}
    (hWF : WFMapping m)
    {p : ConfigurationTaskArgument × ConfigurationTaskArgument}
    (hcompat : ¬ ConflictsWith m p) :
    ∃ m1, m.add_pair p = .ok m1 := by
  obtain ⟨a, b⟩ := p
  rw [ConflictsWith, not_or, not_exists, not_exists] at hcompat
  cases hsa : dget m.source_arguments a with
  | some b2 =>
    have hb2 : b2 = b := by
      by_contra hne
      exact hcompat.1 b2 ⟨mem_of_dget_eq_some hsa, hne⟩
    subst hb2
    exact ⟨m, add_pair_ok_of_mem hWF (mem_of_dget_eq_some hsa)⟩
  | none =>
    cases htb : dget m.target_arguments b with
    | some a2 =>
      have hmem := (dget_target_eq_some_iff hWF).mp htb
      have ha2 : a2 = a := by
        by_contra hne
        exact hcompat.2 a2 ⟨hmem, hne⟩
      subst ha2
      rw [dget_eq_some_of_mem hWF.2.1 hmem] at hsa
      cases hsa
    | none =>
      exact ⟨_, add_pair_ok_of_fresh hWF (dget_none_iff.mp hsa)
        ((dget_target_none_iff hWF).mp htb)⟩

lemma fold_ok_of_no_conflict
    (l : List (ConfigurationTaskArgument × ConfigurationTaskArgument)) :
    ∀ m : ConfigurationTaskArgumentMapping, WFMapping m →
    (l.map Prod.fst).Nodup → (l.map Prod.snd).Nodup →
    (∀ p ∈ l, ¬ ConflictsWith m p) →
    ∃ m', l.foldlM ConfigurationTaskArgumentMapping.add_pair m = .ok m' := by
  induction l with
  | nil => exact fun m _ _ _ _ => ⟨m, by rw [List.foldlM_nil]; rfl⟩
  | cons p tl ih =>
    intro m hWF hk hv hnc
    obtain ⟨m1, hap⟩ := compat_add_pair_ok hWF
      (hnc p (List.mem_cons_self p tl))
    rw [List.foldlM_cons, hap]
    obtain ⟨hWF1, hmem1⟩ := add_pair_ok_wf hWF hap
    simp only [List.map_cons, List.nodup_cons] at hk hv
    refine ih m1 hWF1 hk.2 hv.2 ?_
    intro q hq hc
    have hqk : q.1 ≠ p.1 := by
      intro he
      exact hk.1 (he ▸ List.mem_map.mpr ⟨q, hq, rfl⟩)
    have hqv : q.2 ≠ p.2 := by
      intro he
      exact hv.1 (he ▸ List.mem_map.mpr ⟨q, hq, rfl⟩)
    refine hnc q (List.mem_cons_of_mem _ hq) ?_
    rcases hc with ⟨b', hmem, hne⟩ | ⟨a', hmem, hne⟩
    · rcases (hmem1 (q.1, b')).mp hmem with h | h
      · exact Or.inl ⟨b', h, hne⟩
      · exact absurd (congrArg Prod.fst h) hqk
    · rcases (hmem1 (a', q.2)).mp hmem with h | h
      · exact Or.inr ⟨a', h, hne⟩
      · exact absurd (congrArg Prod.snd h) hqv

lemma fold_error_of_conflict
    (l : List (ConfigurationTaskArgument × ConfigurationTaskArgument)) :
    ∀ m : ConfigurationTaskArgumentMapping, WFMapping m →
    (∃ p ∈ l, ConflictsWith m p) →
    l.foldlM ConfigurationTaskArgumentMapping.add_pair m = .error () := by
  induction l with
  | nil => rintro m _ ⟨p, hp, _⟩; cases hp
  | cons q tl ih =>
    rintro m hWF ⟨p, hp, hc⟩
    rw [List.foldlM_cons]
    cases hap : m.add_pair q with
    | error e => cases e; rfl
    | ok m1 =>
      rcases List.mem_cons.mp hp with he | hmem
      · exfalso
        obtain ⟨a0, b0⟩ := q
        cases he
        rcases hc with ⟨b', hmemc, hne⟩ | ⟨a', hmemc, hne⟩
        · rw [add_pair_error_of_source_conflict hWF hmemc hne] at hap
          cases hap
        · rw [add_pair_error_of_target_conflict hWF hmemc hne] at hap
          cases hap
      · obtain ⟨hWF1, hmem1⟩ := add_pair_ok_wf hWF hap
        refine ih m1 hWF1 ⟨p, hmem, ?_⟩
        rcases hc with ⟨b', hmemc, hne⟩ | ⟨a', hmemc, hne⟩
        · exact Or.inl ⟨b', (hmem1 _).mpr (Or.inl hmemc), hne⟩
        · exact Or.inr ⟨a', (hmem1 _).mpr (Or.inl hmemc), hne⟩

lemma mergeConflict_iff (m1 m2 : ConfigurationTaskArgumentMapping) :
    MergeConflict m1 m2 ↔
      ∃ p ∈ m2.source_arguments, ConflictsWith m1 p := by
  constructor
  · rintro (⟨a, b, b', h1, h2, hne⟩ | ⟨a, a', b, h1, h2, hne⟩)
    · exact ⟨(a, b'), h2, Or.inl ⟨b, h1, hne⟩⟩
    · exact ⟨(a', b), h2, Or.inr ⟨a, h1, hne⟩⟩
  · rintro ⟨⟨a, b⟩, hp, ⟨b', h1, hne⟩ | ⟨a', h1, hne⟩⟩
    · exact Or.inl ⟨a, b', b, h1, hp, hne⟩
    · exact Or.inr ⟨a', a, b, h1, hp, hne⟩

end MappingLemmas

/-- C5: every argument mapping constructible through the
`ConfigurationTaskArgumentMapping` constructor / `add_pair` is a partial
bijection (each direction round-trips through the other), and `merge`
fails with `MatchingException` exactly when some source argument would map
to two different targets or some target argument would be mapped from two
different sources; otherwise `merge` returns the union of the pairs. -/
theorem mapping_partial_bijection_and_merge :
    (∀ l m, ConfigurationTaskArgumentMapping.ofPairs l = .ok m →
       ValidMapping m) ∧
    (∀ m1 m2 : ConfigurationTaskArgumentMapping,
       WFMapping m1 → WFMapping m2 →
       ((∃ m', m1.merge m2 = .ok m') ↔ ¬ MergeConflict m1 m2) ∧
       (∀ m', m1.merge m2 = .ok m' →
          ∀ q, q ∈ m'.source_arguments ↔
            q ∈ m1.source_arguments ∨ q ∈ m2.source_arguments)) := by
  constructor
  · intro l m h
    exact valid_of_wf (ofPairs_wf h).1
  · intro m1 m2 h1 h2
    constructor
    · constructor
      · rintro ⟨m', hok⟩ hc
        rw [merge_eq_foldl h1,
            fold_error_of_conflict m2.source_arguments m1 h1
              ((mergeConflict_iff m1 m2).mp hc)] at hok
        cases hok
      · intro hnc
        rw [merge_eq_foldl h1]
        refine fold_ok_of_no_conflict m2.source_arguments m1 h1 h2.2.1
          h2.2.2 ?_
        intro p hp hcp
        exact hnc ((mergeConflict_iff m1 m2).mpr ⟨p, hp, hcp⟩)
    · intro m' hok q
      rw [merge_eq_foldl h1] at hok
      have := (foldl_add_pair_wf m2.source_arguments m1 h1 m' hok).2 q
      exact this

/-- Witness for C5 at concrete inputs: the mapping built from the single
pair (a, b) is a partial bijection, and merging the mappings
\x7b a ↦ b \x7d and \x7b c ↦ d \x7d yields the union of the pairs. -/
theorem mapping_partial_bijection_and_merge_witness :
    ValidMapping ⟨[(argWA, argWB)], [(argWB, argWA)]⟩ ∧
    ((argWC, argWD) ∈
        (⟨[(argWA, argWB), (argWC, argWD)],
          [(argWB, argWA), (argWD, argWC)]⟩ :
          ConfigurationTaskArgumentMapping).source_arguments ↔
      (argWC, argWD) ∈
          (⟨[(argWA, argWB)], [(argWB, argWA)]⟩ :
            ConfigurationTaskArgumentMapping).source_arguments ∨
        (argWC, argWD) ∈
          (⟨[(argWC, argWD)], [(argWD, argWC)]⟩ :
            ConfigurationTaskArgumentMapping).source_arguments) :=
  ⟨mapping_partial_bijection_and_merge.1 [(argWA, argWB)] _ rfl,
   (mapping_partial_bijection_and_merge.2
      ⟨[(argWA, argWB)], [(argWB, argWA)]⟩
      ⟨[(argWC, argWD)], [(argWD, argWC)]⟩
      (by constructor
          · rfl
          · exact ⟨by decide, by decide⟩)
      (by constructor
          · rfl
          · exact ⟨by decide, by decide⟩)).2
     ⟨[(argWA, argWB), (argWC, argWD)], [(argWB, argWA), (argWD, argWC)]⟩
     (by rfl) (argWC, argWD)⟩

section AllCombinationsLemmas

open ConfigurationTaskArgumentMapping

lemma mem_source_consistent {r : ConfigurationTaskArgumentMapping}
    (hWF : WFMapping r)
    {p q : ConfigurationTaskArgument × ConfigurationTaskArgument}
    (hp : p ∈ r.source_arguments) (hq : q ∈ r.source_arguments) :
    (p.1 = q.1 → p.2 = q.2) ∧ (p.2 = q.2 → p.1 = q.1) := by
  obtain ⟨a, b⟩ := p
  obtain ⟨c, d⟩ := q
  constructor
  · intro he
    cases he
    have h1 := dget_eq_some_of_mem hWF.2.1 hp
    have h2 := dget_eq_some_of_mem hWF.2.1 hq
    rw [h1] at h2
    cases h2
    rfl
  · intro he
    cases he
    have h1 := (dget_target_eq_some_iff hWF).mpr hp
    have h2 := (dget_target_eq_some_iff hWF).mpr hq
    rw [h1] at h2
    cases h2
    rfl

lemma fold_ok_of_consistent
    (l : List (ConfigurationTaskArgument × ConfigurationTaskArgument)) :
    ∀ m : ConfigurationTaskArgumentMapping, WFMapping m →
    (∀ p ∈ l, ∀ q ∈ m.source_arguments,
      (p.1 = q.1 → p.2 = q.2) ∧ (p.2 = q.2 → p.1 = q.1)) →
    (∀ p ∈ l, ∀ q ∈ l,
      (p.1 = q.1 → p.2 = q.2) ∧ (p.2 = q.2 → p.1 = q.1)) →
    ∃ m', l.foldlM ConfigurationTaskArgumentMapping.add_pair m = .ok m' := by
  induction l with
  | nil => exact fun m _ _ _ => ⟨m, by rw [List.foldlM_nil]; rfl⟩
  | cons p tl ih =>
    intro m hWF hml hll
    have hnc : ¬ ConflictsWith m p := by
      rintro (⟨b', hmem, hne⟩ | ⟨a', hmem, hne⟩)
      · exact hne ((hml p (List.mem_cons_self p tl) (p.1, b') hmem).1
          rfl).symm
      · exact hne ((hml p (List.mem_cons_self p tl) (a', p.2) hmem).2
          rfl).symm
    obtain ⟨m1, hap⟩ := compat_add_pair_ok hWF hnc
    rw [List.foldlM_cons, hap]
    obtain ⟨hWF1, hmem1⟩ := add_pair_ok_wf hWF hap
    refine ih m1 hWF1 ?_ ?_
    · intro p2 hp2 q hq
      rcases (hmem1 q).mp hq with h | h
      · exact hml p2 (List.mem_cons_of_mem _ hp2) q h
      · rw [h]
        exact hll p2 (List.mem_cons_of_mem _ hp2) p (List.mem_cons_self p tl)
    · intro p2 hp2 q hq
      exact hll p2 (List.mem_cons_of_mem _ hp2) q (List.mem_cons_of_mem _ hq)

lemma merge_all_ok_of_pairwise
    (tup : List ConfigurationTaskArgumentMapping)
    (hWFall : ∀ ma ∈ tup, WFMapping ma)
    (hpair : ∀ ma ∈ tup, ∀ mb ∈ tup, ∃ r, ma.merge mb = .ok r) :
    ∃ m, ConfigurationTaskArgumentMapping.merge_all tup = .ok m := by
  rw [ConfigurationTaskArgumentMapping.merge_all]
  refine fold_ok_of_consistent _ _ wf_empty (fun p _ q hq => by cases hq) ?_
  intro p hp q hq
  obtain ⟨ma, hma, hpa⟩ := List.mem_flatMap.mp hp
  obtain ⟨mb, hmb, hqb⟩ := List.mem_flatMap.mp hq
  obtain ⟨r, hr⟩ := hpair ma hma mb hmb
  have hfold : (ma.source_arguments ++ mb.source_arguments).foldlM
      ConfigurationTaskArgumentMapping.add_pair
      ConfigurationTaskArgumentMapping.empty = .ok r := hr
  obtain ⟨hWFr, hmemr⟩ :=
    foldl_add_pair_wf (ma.source_arguments ++ mb.source_arguments) _
      wf_empty r hfold
  have hps : p ∈ r.source_arguments := by
    rw [hmemr p]
    exact Or.inr (List.mem_append.mpr (Or.inl hpa))
  have hqs : q ∈ r.source_arguments := by
    rw [hmemr q]
    exact Or.inr (List.mem_append.mpr (Or.inr hqb))
  exact mem_source_consistent hWFr hps hqs

end AllCombinationsLemmas

/-- C8 counterexample: for the empty input list, `all_combinations`
returns the empty set, whereas the Cartesian product contains the empty
tuple whose merge is the empty mapping, so the spec-side set is the
singleton of the empty mapping. -/
theorem all_combinations_empty_input_counterexample :
    ConfigurationTaskArgumentMapping.all_combinations [] = ∅ ∧
    cartesianMergeSet [] = {ConfigurationTaskArgumentMapping.empty} ∧
    ConfigurationTaskArgumentMapping.all_combinations [] ≠
      cartesianMergeSet [] := by
  refine ⟨rfl, rfl, ?_⟩
  decide

/-- C8 (amended): for every nonempty input list, `all_combinations`
equals the set of conflict-free merges over the Cartesian product, every
returned element is a valid mapping, and a tuple of pairwise-mergeable
well-formed mappings always contributes its merge. For the empty input
list the code returns the empty set instead of the singleton of the empty
mapping. -/
theorem all_combinations_cartesian
    (L : List (List ConfigurationTaskArgumentMapping)) (hne : L ≠ []) :
    ConfigurationTaskArgumentMapping.all_combinations L =
      cartesianMergeSet L ∧
    (∀ m ∈ ConfigurationTaskArgumentMapping.all_combinations L,
       ValidMapping m) ∧
    (∀ tup ∈ L.sections, (∀ ma ∈ tup, WFMapping ma) →
       (∀ ma ∈ tup, ∀ mb ∈ tup, ∃ r, ma.merge mb = .ok r) →
       ∃ m, ConfigurationTaskArgumentMapping.merge_all tup = .ok m ∧
         m ∈ ConfigurationTaskArgumentMapping.all_combinations L) := by
  have heq : ConfigurationTaskArgumentMapping.all_combinations L =
      cartesianMergeSet L := by
    rw [ConfigurationTaskArgumentMapping.all_combinations, if_neg hne]
    rfl
  refine ⟨heq, ?_, ?_⟩
  · intro m hm
    rw [heq, cartesianMergeSet] at hm
    obtain ⟨elements, _, hm2⟩ := List.mem_filterMap.mp (List.mem_toFinset.mp hm)
    cases hma : ConfigurationTaskArgumentMapping.merge_all elements with
    | error e => rw [hma] at hm2; cases hm2
    | ok m2 =>
      rw [hma] at hm2
      cases hm2
      exact valid_of_wf (ofPairs_wf hma).1
  · intro tup htup hWFall hpair
    obtain ⟨m, hm⟩ := merge_all_ok_of_pairwise tup hWFall hpair
    refine ⟨m, hm, ?_⟩
    rw [heq, cartesianMergeSet]
    refine List.mem_toFinset.mpr (List.mem_filterMap.mpr ⟨tup, htup, ?_⟩)
    rw [hm]
    rfl

/-- Witness for C8 at a concrete input: the single-collection input list
containing one single-pair mapping. -/
theorem all_combinations_cartesian_witness :
    ConfigurationTaskArgumentMapping.all_combinations
        [[⟨[(argWA, argWB)], [(argWB, argWA)]⟩]] =
      cartesianMergeSet [[⟨[(argWA, argWB)], [(argWB, argWA)]⟩]] :=
  (all_combinations_cartesian [[⟨[(argWA, argWB)], [(argWB, argWA)]⟩]]
    (by decide)).1

section ConstructorLemmas

lemma splitAux_ne_nil (sep : Str) (fuel : Nat) (s : Str) :
    splitAux sep fuel s ≠ [] := by
  cases fuel with
  | zero => simp [splitAux]
  | succ n =>
    rw [splitAux]
    cases firstOcc sep s with
    | none => simp
    | some pp => obtain ⟨pre, post⟩ := pp; simp

lemma joinWith_cons (sep : Str) (x : Str) {l : List Str} (hl : l ≠ []) :
    joinWith sep (x :: l) = x ++ sep ++ joinWith sep l := by
  cases l with
  | nil => exact absurd rfl hl
  | cons y rest => rfl

lemma splitAux_join {sep : Str} (hsep : sep ≠ []) :
    ∀ (fuel : Nat) (s : Str), s.length < fuel →
      joinWith sep (splitAux sep fuel s) = s := by
  intro fuel
  induction fuel with
  | zero => intro s h; omega
  | succ n ih =>
    intro s h
    rw [splitAux]
    cases hfo : firstOcc sep s with
    | none => rfl
    | some pp =>
      obtain ⟨pre, post⟩ := pp
      rw [joinWith_cons sep pre (splitAux_ne_nil sep n post)]
      have hlt := firstOcc_post_lt hsep hfo
      rw [ih post (by omega)]
      exact (firstOcc_eq hfo).symm

lemma splitPieces_join {sep : Str} (hsep : sep ≠ []) (s : Str) :
    joinWith sep (splitPieces sep s) = s := by
  rw [splitPieces, if_neg (by simpa using hsep)]
  exact splitAux_join hsep (s.length + 1) s (by omega)

lemma interleave_flatMap (a : ConfigurationTaskArgument) :
    ∀ pieces : List Str,
      (interleaveArg a pieces).flatMap SVPart.str = joinWith a.value pieces := by
  intro pieces
  induction pieces with
  | nil => rfl
  | cons s rest ih =>
    cases rest with
    | nil => simp [interleaveArg, joinWith, SVPart.str]
    | cons s2 rest2 =>
      rw [interleaveArg, joinWith_cons _ _ (by simp)]
      simp only [List.flatMap_cons] at ih ⊢
      rw [ih]
      simp [SVPart.str]

lemma flatMap_str_splitPart {a : ConfigurationTaskArgument}
    (ha : a.value ≠ []) (p : SVPart) :
    (splitPartOnArg a p).flatMap SVPart.str = p.str := by
  cases p with
  | arg b => simp [splitPartOnArg, SVPart.str]
  | lit s =>
    rw [splitPartOnArg, interleave_flatMap, splitPieces_join ha]
    rfl

lemma flatMap_chunks_str {a : ConfigurationTaskArgument}
    (ha : a.value ≠ []) :
    ∀ ps : List SVPart,
      ps.flatMap (fun p => (splitPartOnArg a p).flatMap SVPart.str) =
        ps.flatMap SVPart.str := by
  intro ps
  induction ps with
  | nil => rfl
  | cons p rest ih =>
    simp only [List.flatMap_cons, ih, flatMap_str_splitPart ha p]

lemma flatMap_str_filter_truthy (l : List SVPart) :
    (l.filter SVPart.truthy).flatMap SVPart.str = l.flatMap SVPart.str := by
  induction l with
  | nil => rfl
  | cons p rest ih =>
    by_cases hp : SVPart.truthy p
    · rw [List.filter_cons_of_pos hp]
      simp only [List.flatMap_cons, ih]
    · rw [List.filter_cons_of_neg hp]
      cases p with
      | arg b => simp [SVPart.truthy] at hp
      | lit s =>
        simp only [SVPart.truthy, Bool.not_eq_true] at hp
        have hs : s = [] := by
          by_contra hne
          simp [List.isEmpty_iff, hne] at hp
        subst hs
        simp only [List.flatMap_cons, ih, SVPart.str, List.nil_append]

lemma flatMap_flatten {α β : Type} (f : α → List β) (ll : List (List α)) :
    (ll.flatten).flatMap f = ll.flatMap (fun l => l.flatMap f) := by
  induction ll with
  | nil => rfl
  | cons l rest ih =>
    simp only [List.flatten_cons, List.flatMap_append, List.flatMap_cons, ih]

lemma filter_flatten {α : Type} (p : α → Bool) (ll : List (List α)) :
    (ll.flatten).filter p = (ll.map (fun l => l.filter p)).flatten := by
  induction ll with
  | nil => rfl
  | cons l rest ih =>
    simp only [List.flatten_cons, List.filter_append, ih, List.map_cons]

lemma chain_filtered_interleave (a : ConfigurationTaskArgument) :
    ∀ pieces : List Str,
      List.Chain' NotBothLits
        ((interleaveArg a pieces).filter SVPart.truthy) := by
  intro pieces
  induction pieces with
  | nil => simp [interleaveArg]
  | cons s rest ih =>
    cases rest with
    | nil =>
      rw [interleaveArg]
      by_cases hs : SVPart.truthy (.lit s)
      · rw [List.filter_cons_of_pos hs]
        simp
      · rw [List.filter_cons_of_neg hs]
        simp
    | cons s2 rest2 =>
      rw [interleaveArg, List.filter_cons, List.filter_cons]
      have harg : SVPart.truthy (SVPart.arg a) = true := rfl
      rw [harg]
      simp only [if_true]
      have htail : List.Chain' NotBothLits
          (SVPart.arg a :: (interleaveArg a (s2 :: rest2)).filter
            SVPart.truthy) := by
        rw [List.chain'_cons']
        refine ⟨fun b _ => Or.inl rfl, ih⟩
      by_cases hs : SVPart.truthy (.lit s)
      · rw [if_pos hs]
        rw [List.chain'_cons']
        exact ⟨fun b hb => by
          simp only [List.head?_cons, Option.mem_def, Option.some.injEq] at hb
          rw [← hb]
          exact Or.inr rfl, htail⟩
      · rw [if_neg hs]
        exact htail

lemma chunk_arg_filter (a b : ConfigurationTaskArgument) :
    (splitPartOnArg a (.arg b)).filter SVPart.truthy = [.arg b] := rfl

lemma chain_filtered_chunk (a : ConfigurationTaskArgument) (p : SVPart) :
    List.Chain' NotBothLits
      ((splitPartOnArg a p).filter SVPart.truthy) := by
  cases p with
  | arg b => rw [chunk_arg_filter]; simp
  | lit s => exact chain_filtered_interleave a (splitPieces a.value s)

lemma chunk_ne_nil {a : ConfigurationTaskArgument} (ha : a.value ≠ [])
    {p : SVPart} (hp : ∀ s, p = SVPart.lit s → s ≠ []) :
    (splitPartOnArg a p).filter SVPart.truthy ≠ [] := by
  cases p with
  | arg b => rw [chunk_arg_filter]; simp
  | lit s =>
    have hs := hp s rfl
    rw [splitPartOnArg]
    have hjoin := splitPieces_join ha s
    cases hpieces : splitPieces a.value s with
    | nil => rw [hpieces] at hjoin; exact absurd hjoin.symm hs
    | cons s0 rest =>
      cases rest with
      | nil =>
        rw [hpieces] at hjoin
        rw [interleaveArg]
        have hs0 : s0 ≠ [] := by
          rw [joinWith] at hjoin
          rw [hjoin]
          exact hs
        have ht : SVPart.truthy (.lit s0) = true := by
          simp [SVPart.truthy, List.isEmpty_iff, hs0]
        rw [List.filter_cons, ht]
        simp
      | cons s1 rest2 =>
        rw [interleaveArg]
        intro hcontra
        have hmem : SVPart.arg a ∈
            (SVPart.lit s0 :: SVPart.arg a ::
              interleaveArg a (s1 :: rest2)).filter SVPart.truthy := by
          rw [List.mem_filter]
          exact ⟨List.mem_cons_of_mem _ (List.mem_cons_self _ _), rfl⟩
        rw [hcontra] at hmem
        cases hmem

lemma notBothLits_of_right_arg (p : SVPart) (b : ConfigurationTaskArgument) :
    NotBothLits p (.arg b) := Or.inr rfl

lemma notBothLits_of_left_arg (b : ConfigurationTaskArgument) (q : SVPart) :
    NotBothLits (.arg b) q := Or.inl rfl

lemma chain_argRound_core (a : ConfigurationTaskArgument)
    (ha : a.value ≠ []) :
    ∀ ps : List SVPart, List.Chain' NotBothLits ps →
    (∀ s, SVPart.lit s ∈ ps → s ≠ []) →
    List.Chain' NotBothLits
      ((ps.map (fun p => (splitPartOnArg a p).filter SVPart.truthy)).flatten)
    := by
  intro ps
  induction ps with
  | nil => intro _ _; simp
  | cons p rest ih =>
    intro hch hne
    simp only [List.map_cons, List.flatten_cons]
    rw [List.chain'_append]
    refine ⟨chain_filtered_chunk a p,
      ih hch.tail (fun s hs => hne s (List.mem_cons_of_mem _ hs)), ?_⟩
    intro x hx y hy
    cases rest with
    | nil => simp at hy
    | cons q rest2 =>
      simp only [List.map_cons, List.flatten_cons] at hy
      cases p with
      | arg b =>
        rw [chunk_arg_filter] at hx
        simp only [List.getLast?_singleton, Option.mem_def,
          Option.some.injEq] at hx
        rw [← hx]
        exact notBothLits_of_left_arg b y
      | lit s =>
        have hr : NotBothLits (.lit s) q :=
          (List.chain'_cons'.mp hch).1 q (by simp)
        have hq : ∃ b, q = SVPart.arg b := by
          rcases hr with hr | hr
          · simp [SVPart.isLit] at hr
          · cases q with
            | lit s2 => simp [SVPart.isLit] at hr
            | arg b => exact ⟨b, rfl⟩
        obtain ⟨b, hb⟩ := hq
        subst hb
        rw [List.head?_append, chunk_arg_filter] at hy
        simp only [List.head?_cons, Option.or_some, Option.mem_def,
          Option.some.injEq] at hy
        rw [← hy]
        exact notBothLits_of_right_arg x b

lemma argRound_preserves {ov : Str} {ps : List SVPart}
    (a : ConfigurationTaskArgument) (h : GoodParts ov ps) :
    GoodParts ov (argRound ps a) := by
  rw [argRound]
  by_cases ha : a.value = []
  · rw [if_pos ha]; exact h
  · rw [if_neg ha]
    obtain ⟨hcat, hne, hch⟩ := h
    refine ⟨?_, ?_, ?_⟩
    · rw [flatMap_str_filter_truthy, flatMap_flatten]
      rw [← hcat]
      have hmm : (ps.map (splitPartOnArg a)).flatMap
          (fun l => l.flatMap SVPart.str) =
          ps.flatMap (fun p => (splitPartOnArg a p).flatMap SVPart.str) := by
        rw [List.flatMap_map]
      rw [hmm, flatMap_chunks_str ha]
    · intro s hs
      rw [List.mem_filter] at hs
      have := hs.2
      simp only [SVPart.truthy, Bool.not_eq_true] at this
      intro hsnil
      subst hsnil
      simp [List.isEmpty_iff] at this
    · rw [filter_flatten]
      have hmap : (ps.map (splitPartOnArg a)).map
          (fun l => l.filter SVPart.truthy)
          = ps.map (fun p => (splitPartOnArg a p).filter SVPart.truthy) := by
        rw [List.map_map]
        rfl
      rw [hmap]
      exact chain_argRound_core a ha ps hch hne

end ConstructorLemmas

lemma foldl_argRound_preserves {ov : Str} :
    ∀ (L : List ConfigurationTaskArgument) (ps : List SVPart),
      GoodParts ov ps → GoodParts ov (L.foldl argRound ps) := by
  intro L
  induction L with
  | nil => exact fun ps h => h
  | cons a rest ih =>
    intro ps h
    rw [List.foldl_cons]
    exact ih (argRound ps a) (argRound_preserves a h)

lemma goodParts_init (ov : Str) :
    GoodParts ov (if ov = [] then ([] : List SVPart) else [.lit ov]) := by
  by_cases hov : ov = []
  · rw [if_pos hov]
    refine ⟨hov.symm, ?_, ?_⟩
    · intro s hs
      cases hs
    · simp
  · rw [if_neg hov]
    refine ⟨by simp [SVPart.str], ?_, by simp⟩
    intro s hs
    simp only [List.mem_singleton, SVPart.lit.injEq] at hs
    rw [hs]
    exact hov

/-- C4: every synthetic value produced by the constructor satisfies the
structural invariants: the concatenation of the string forms of its parts
equals the string form of its original value, no two adjacent parts are
both literals, and its argument set is exactly the set of arguments that
occur in its parts (pool arguments that never appear are discarded). -/
theorem synthetic_value_constructor_invariants (ov : Str)
    (pool : List ConfigurationTaskArgument) :
    ((SyntheticValue.ofPrimitive ov pool).parts.flatMap SVPart.str = ov) ∧
    List.Chain' NotBothLits (SyntheticValue.ofPrimitive ov pool).parts ∧
    (SyntheticValue.ofPrimitive ov pool).arguments =
      (argsInParts (SyntheticValue.ofPrimitive ov pool).parts).toFinset := by
  have hgood : GoodParts ov (SyntheticValue.ofPrimitive ov pool).parts :=
    foldl_argRound_preserves (sortByLenDesc (augmentedPool ov pool)) _
      (goodParts_init ov)
  exact ⟨hgood.1, hgood.2.2, rfl⟩

/-- C3: mapping the synthetic value built from `+fox+dog+` with argument
pool containing `fox` and `dog` (in either pool order) onto the primitive
`+vulpine+++canine+` yields exactly the three mappings where `fox` takes
one of the prefixes `vulpine`, `vulpine+`, `vulpine++` and `dog` takes the
remainder. -/
theorem fox_dog_mapping_search :
    ((SyntheticValue.ofPrimitive "+fox+dog+".toList
        [argFox, argDog]).map_to_primitive "+vulpine+++canine+".toList =
      {mtpExpected "vulpine" "++canine", mtpExpected "vulpine+" "+canine",
       mtpExpected "vulpine++" "canine"}) ∧
    ((SyntheticValue.ofPrimitive "+fox+dog+".toList
        [argDog, argFox]).map_to_primitive "+vulpine+++canine+".toList =
      {mtpExpected "vulpine" "++canine", mtpExpected "vulpine+" "+canine",
       mtpExpected "vulpine++" "canine"}) ∧
    ((SyntheticValue.ofPrimitive "+fox+dog+".toList
        [argFox, argDog]).map_to_primitive
          "+vulpine+++canine+".toList).card = 3 := by
  refine ⟨by decide, by decide, by decide⟩

section RoundTripLemmas

lemma mem_argsInParts {ps : List SVPart} {a : ConfigurationTaskArgument} :
    a ∈ argsInParts ps ↔ SVPart.arg a ∈ ps := by
  rw [argsInParts, List.mem_filterMap]
  constructor
  · rintro ⟨p, hp, he⟩
    cases p with
    | lit s => cases he
    | arg b =>
      simp only [Option.some.injEq] at he
      rw [he] at hp
      exact hp
  · intro h
    exact ⟨.arg a, h, rfl⟩

lemma map_swap_swap (s : ArgDict) : (s.map Prod.swap).map Prod.swap = s := by
  rw [List.map_map]
  have : (Prod.swap ∘ Prod.swap :
      ConfigurationTaskArgument × ConfigurationTaskArgument → _) = id := by
    funext p
    simp
  rw [this, List.map_id]

lemma invert_of_wf {m : ConfigurationTaskArgumentMapping}
    (hWF : WFMapping m) :
    m.invert = .ok ⟨m.source_arguments.map Prod.swap, m.source_arguments⟩ := by
  rw [ConfigurationTaskArgumentMapping.invert]
  have h := ofPairs_rebuild (m.source_arguments.map Prod.swap)
    (by rw [map_fst_map_swap]; exact hWF.2.2)
    (by rw [map_snd_map_swap]; exact hWF.2.1)
  rw [h, map_swap_swap]

end RoundTripLemmas


/-- C6: mapping round-trip on synthetic values. For every structurally
sound synthetic value `v` and well-formed mapping `m` whose source
arguments cover the arguments of `v`, inverting `m` succeeds and
`v.from_mapping(m).from_mapping(m.invert())` equals `v`. -/
theorem synthetic_value_mapping_roundtrip (v : SyntheticValue)
    (m : ConfigurationTaskArgumentMapping)
    (hv : WFSyntheticValue v) (hm : WFMapping m)
    (hcov : ∀ a ∈ v.arguments, a ∈ m.source_arguments.map Prod.fst) :
    ∃ mi, m.invert = .ok mi ∧ (v.from_mapping m).from_mapping mi = v := by
  refine ⟨⟨m.source_arguments.map Prod.swap, m.source_arguments⟩,
    invert_of_wf hm, ?_⟩
  have hpt : ∀ p ∈ v.parts,
      mapPart ⟨m.source_arguments.map Prod.swap, m.source_arguments⟩
        (mapPart m p) = p := by
    intro p hp
    cases p with
    | lit s2 => rfl
    | arg a =>
      have hmem : a ∈ v.arguments := by
        rw [hv.2, List.mem_toFinset]
        exact mem_argsInParts.mpr hp
      have hsome : (dget m.source_arguments a).isSome :=
        dget_isSome_iff.mpr (hcov a hmem)
      cases hget : dget m.source_arguments a with
      | none => rw [hget] at hsome; cases hsome
      | some b =>
        have hnd : ((m.source_arguments.map Prod.swap).map Prod.fst).Nodup :=
          by rw [map_fst_map_swap]; exact hm.2.2
        have hgi : dget (m.source_arguments.map Prod.swap) b = some a :=
          dget_eq_some_of_mem hnd (mem_map_swap.mpr (mem_of_dget_eq_some hget))
        rw [mapPart, hget]
        rw [mapPart]
        rw [hgi]
  have hparts : (v.parts.map (mapPart m)).map
      (mapPart ⟨m.source_arguments.map Prod.swap, m.source_arguments⟩)
        = v.parts := by
    rw [List.map_map]
    calc v.parts.map _ = v.parts.map id := List.map_congr_left hpt
      _ = v.parts := List.map_id v.parts
  calc (v.from_mapping m).from_mapping
        ⟨m.source_arguments.map Prod.swap, m.source_arguments⟩
      = ⟨((v.parts.map (mapPart m)).map
            (mapPart ⟨m.source_arguments.map Prod.swap,
              m.source_arguments⟩)).flatMap SVPart.str,
         (argsInParts ((v.parts.map (mapPart m)).map
            (mapPart ⟨m.source_arguments.map Prod.swap,
              m.source_arguments⟩))).toFinset,
         (v.parts.map (mapPart m)).map
            (mapPart ⟨m.source_arguments.map Prod.swap,
              m.source_arguments⟩)⟩ := rfl
    _ = ⟨v.parts.flatMap SVPart.str, (argsInParts v.parts).toFinset,
         v.parts⟩ := by rw [hparts]
    _ = v := by
        obtain ⟨ov0, args0, parts0⟩ := v
        obtain ⟨h1, h2⟩ := hv
        simp only at h1 h2 ⊢
        rw [h1, ← h2]

/-- Witness for C6 at concrete inputs: the synthetic value `x‹a›` mapped
through a to b and back. -/
theorem synthetic_value_mapping_roundtrip_witness :
    mWAB.invert = .ok mWBA ∧
    (svWX.from_mapping mWAB).from_mapping mWBA = svWX := by
  obtain ⟨mi, h1, h2⟩ := synthetic_value_mapping_roundtrip svWX mWAB
    ⟨by decide, by decide⟩ ⟨by decide, by decide, by decide⟩ (by decide)
  have hinv : mWAB.invert = .ok mWBA := rfl
  rw [hinv] at h1
  have hmi : mWBA = mi := by
    cases h1
    rfl
  rw [hinv]
  exact ⟨rfl, by rw [hmi]; exact h2⟩

section IntersectionLemmas

lemma pairCount_eq_zero_of_no_shared
    {source target : Finset ConfigurationChange}
    (h : ∀ c ∈ source, ∀ c2 ∈ target, changeTag c ≠ changeTag c2) :
    pairCount source target = 0 := by
  rw [pairCount]
  have hshared : sharedTags source target = ∅ := by
    rw [sharedTags, Finset.filter_eq_empty_iff]
    rintro tg - ⟨⟨c, hc⟩, ⟨c2, hc2⟩⟩
    rw [Finset.mem_filter] at hc hc2
    exact h c hc.1 c2 hc2.1 (hc.2.trans hc2.2.symm)
  rw [hshared]
  rfl

end IntersectionLemmas

/-- C1: `change_intersection` is total and returns the empty triple when
no change variant occurs on both sides (in particular when either side is
empty, the pair count is 0): for every mapping-mode continuation, source
and target sets and `with_mapping` preference, the result is exactly
(empty set, empty set, empty mapping) and no error is raised. -/
theorem change_intersection_empty_when_no_shared_variant
    (mappingMode : Finset ConfigurationChange → Finset ConfigurationChange →
      Finset ConfigurationChange × Finset ConfigurationChange ×
        ConfigurationTaskArgumentMapping)
    (source target : Finset ConfigurationChange)
    (with_mapping : Option Bool)
    (h : ∀ c ∈ source, ∀ c2 ∈ target, changeTag c ≠ changeTag c2) :
    ConfigurationChange.change_intersection mappingMode source target
      with_mapping =
      (∅, ∅, ConfigurationTaskArgumentMapping.empty) := by
  rw [ConfigurationChange.change_intersection]
  simp only [pairCount_eq_zero_of_no_shared h]
  rfl

/-- Witness for C1 at concrete inputs: a singleton source against the
empty target set (pair count 0). -/
theorem change_intersection_empty_witness :
    ConfigurationChange.change_intersection
      (fun _ _ => (∅, ∅, ConfigurationTaskArgumentMapping.empty))
      {ConfigurationChange.fileAdd svWX} ∅ none =
      (∅, ∅, ConfigurationTaskArgumentMapping.empty) :=
  change_intersection_empty_when_no_shared_variant _ _ _ _
    (fun c _ c2 hc2 => absurd hc2 (by simp))

/-- C2: in exact mode `change_intersection` bypasses mapping. For every
mapping-mode continuation, sets with at least one shared-variant pair and
either `with_mapping = False` or no preference with the pair count above
the 25,000,000 threshold, the result is the plain set intersection on
both sides with the empty mapping; in particular every change common to
both sides intersects with itself. -/
theorem change_intersection_exact_mode
    (mappingMode : Finset ConfigurationChange → Finset ConfigurationChange →
      Finset ConfigurationChange × Finset ConfigurationChange ×
        ConfigurationTaskArgumentMapping)
    (source target : Finset ConfigurationChange)
    (with_mapping : Option Bool)
    (hpairs : 0 < pairCount source target)
    (hmode : with_mapping = some false ∨
      (with_mapping = none ∧ 25000000 < pairCount source target)) :
    ConfigurationChange.change_intersection mappingMode source target
        with_mapping =
      (source ∩ target, source ∩ target,
        ConfigurationTaskArgumentMapping.empty) ∧
    (∀ c ∈ source, c ∈ target →
      c ∈ (ConfigurationChange.change_intersection mappingMode source target
        with_mapping).1) := by
  have heq : ConfigurationChange.change_intersection mappingMode source
      target with_mapping =
      (source ∩ target, source ∩ target,
        ConfigurationTaskArgumentMapping.empty) := by
    rw [ConfigurationChange.change_intersection]
    rw [if_neg (by omega), if_pos hmode]
  refine ⟨heq, fun c hc hct => ?_⟩
  rw [heq]
  exact Finset.mem_inter.mpr ⟨hc, hct⟩

/-- Witness for C2 at concrete inputs: equal singleton change sets with
`with_mapping = False`; the single change intersects with itself. -/
theorem change_intersection_exact_mode_witness :
    ConfigurationChange.change_intersection
        (fun _ _ => (∅, ∅, ConfigurationTaskArgumentMapping.empty))
        {ConfigurationChange.fileAdd svWX} {ConfigurationChange.fileAdd svWX}
        (some false) =
      ({ConfigurationChange.fileAdd svWX}, {ConfigurationChange.fileAdd svWX},
        ConfigurationTaskArgumentMapping.empty) ∧
    ConfigurationChange.fileAdd svWX ∈
      (ConfigurationChange.change_intersection
        (fun _ _ => (∅, ∅, ConfigurationTaskArgumentMapping.empty))
        {ConfigurationChange.fileAdd svWX} {ConfigurationChange.fileAdd svWX}
        (some false)).1 := by
  obtain ⟨h1, h2⟩ := change_intersection_exact_mode
    (fun _ _ => (∅, ∅, ConfigurationTaskArgumentMapping.empty))
    {ConfigurationChange.fileAdd svWX} {ConfigurationChange.fileAdd svWX}
    (some false) (by decide) (Or.inl rfl)
  constructor
  · rw [h1]
    rfl
  · exact h2 _ (by simp) (by simp)

/-- C10: task argument substitution changes only the arguments and the
changes. For every configuration task `t` and argument mapping `m`, a
successful `t.from_mapping(m)` yields a task whose `system` and
`executable` equal those of `t`. -/
theorem task_from_mapping_preserves_system_executable
    (t : ConfigurationTask) (m : ConfigurationTaskArgumentMapping)
    (t2 : ConfigurationTask) (h : t.from_mapping m = .ok t2) :
    t2.system = t.system ∧ t2.executable = t.executable := by
  obtain ⟨sys, exe, args, chs, cta⟩ := t
  cases args with
  | seq items =>
    simp only [ConfigurationTask.from_mapping] at h
    cases hr : rewriteSeqValues m items with
    | error e =>
      rw [hr] at h
      exact Except.noConfusion h
    | ok pair =>
      obtain ⟨nitems, args2⟩ := pair
      rw [hr] at h
      have h2 := Except.ok.inj h
      rw [← h2]
      exact ⟨rfl, rfl⟩
  | dict entries =>
    simp only [ConfigurationTask.from_mapping] at h
    cases hr : rewriteNodeEntries m entries with
    | error e =>
      rw [hr] at h
      exact Except.noConfusion h
    | ok pair =>
      obtain ⟨nentries, args2⟩ := pair
      rw [hr] at h
      have h2 := Except.ok.inj h
      rw [← h2]
      exact ⟨rfl, rfl⟩

/-- Witness for C10 at concrete inputs: `shell rm file.txt` mapped
through the empty mapping maps to itself, preserving system and
executable. -/
theorem task_from_mapping_preserves_witness :
    taskW.system = taskW.system ∧ taskW.executable = taskW.executable :=
  task_from_mapping_preserves_system_executable taskW
    ConfigurationTaskArgumentMapping.empty taskW rfl

/-- C9 counterexample: with the backing store unreachable, the candidate-
task query surfaces the error instead of degrading to the empty result
set (`_with_tables` logs and re-raises `OperationalError`,
`knowledge_base.py` lines 82-87). -/
theorem kb_unavailable_store_counterexample :
    get_configuration_tasks none (some .shell) none = .error () ∧
    get_configuration_tasks none (some .shell) none ≠ .ok ∅ :=
  ⟨rfl, fun h => Except.noConfusion h⟩

/-- C9 (amended): when the backing store is unreachable every
`get_configuration_tasks` query raises (re-raises the table-creation
`OperationalError`) rather than returning an empty result, and when the
store is reachable the query returns normally. -/
theorem kb_queries_surface_error_when_unavailable :
    (∀ (system : Option ConfigurationSystem) (level : Option Nat),
       get_configuration_tasks none system level = .error ()) ∧
    (∀ (rows : List TaskExecutionRow) (system : Option ConfigurationSystem)
       (level : Option Nat),
       ∃ s, get_configuration_tasks (some rows) system level = .ok s) :=
  ⟨fun _ _ => rfl, fun rows system level => ⟨_, rfl⟩⟩

section SerializationLemmas

/-- Bind of a successful `Except` computation reduces. -/
theorem exceptBind_ok {α β : Type} (a : α) (f : α → Except Unit β) :
    (Except.ok a : Except Unit α) >>= f = f a := rfl

/-- The constructor records the primitive it was built from. -/
theorem ofPrimitive_original_value (ov : Str)
    (pool : List ConfigurationTaskArgument) :
    (SyntheticValue.ofPrimitive ov pool).original_value = ov := rfl

/-- Re-lifting a change over a pool twice is the same as re-lifting over
the final pool once (only the original values are consulted). -/
theorem from_arguments_idem (c : ConfigurationChange)
    (l1 l2 : List ConfigurationTaskArgument) :
    (c.from_arguments l1).from_arguments l2 = c.from_arguments l2 := by
  cases c <;>
    simp [ConfigurationChange.from_arguments,
      FileContentChange.from_arguments, ofPrimitive_original_value,
      List.map_map, Function.comp]

/-- Membership in the canonical sorted form is membership in the
underlying list. -/
theorem mem_changesSorted (x : ConfigurationChange)
    (l : List ConfigurationChange) :
    x ∈ changesSorted l ↔ x ∈ l := by
  show x ∈ List.insertionSort (· ≤ ·) l.dedup ↔ x ∈ l
  rw [List.Perm.mem_iff (List.perm_insertionSort _ _)]
  exact List.mem_dedup

/-- The canonical sorted form is a fixed point of itself. -/
theorem changesSorted_idem (l : List ConfigurationChange) :
    changesSorted (changesSorted l) = changesSorted l := by
  have hnd : (changesSorted l).Nodup :=
    (List.perm_insertionSort (· ≤ ·) l.dedup).symm.nodup (List.nodup_dedup l)
  have hs : List.Sorted (· ≤ ·) (changesSorted l) :=
    List.sorted_insertionSort (· ≤ ·) l.dedup
  have h1 : (changesSorted l).dedup = changesSorted l :=
    List.dedup_eq_self.mpr hnd
  show List.insertionSort (· ≤ ·) (changesSorted l).dedup = changesSorted l
  rw [h1]
  exact List.Sorted.insertionSort_eq hs

/-- Decoding the string value of a configuration system recovers it. -/
theorem decodeSystem_value (s : ConfigurationSystem) :
    decodeSystem s.value = Except.ok s := by
  cases s <;> rfl

/-- Decoding the encoding of a file content change rebuilds it over the
empty argument pool. -/
theorem decodeFCC_encodeFCC (f : FileContentChange) :
    decodeFCC (encodeFCC f) = Except.ok (f.from_arguments []) := by
  obtain ⟨ct, cont⟩ := f
  cases ct <;> rfl

/-- Element-wise decoding of an encoded list of file content changes. -/
theorem mapM_decodeFCC (cs : List FileContentChange) :
    List.mapM decodeFCC (cs.map encodeFCC) =
      Except.ok (cs.map (fun f => f.from_arguments [])) := by
  induction cs with
  | nil => rfl
  | cons f rest ih =>
    rw [List.map_cons, List.map_cons, List.mapM_cons, decodeFCC_encodeFCC,
      ih]
    rfl

/-- Decoding the encoding of a change rebuilds it over the empty argument
pool. -/
theorem decodeChange_encodeChange (c : ConfigurationChange) :
    decodeChange (encodeChange c) = Except.ok (c.from_arguments []) := by
  cases c
  case fileChange p cs =>
    have hred : decodeChange (encodeChange
        (ConfigurationChange.fileChange p cs)) =
        (do
          let fccs ← List.mapM decodeFCC (cs.map encodeFCC)
          Except.ok (ConfigurationChange.fileChange
            (SyntheticValue.ofPrimitive p.original_value []) fccs)) := rfl
    rw [hred, mapM_decodeFCC]
    rfl
  all_goals rfl

/-- Element-wise decoding of an encoded list of changes. -/
theorem mapM_decodeChange (l : List ConfigurationChange) :
    List.mapM decodeChange (l.map encodeChange) =
      Except.ok (l.map (fun c => c.from_arguments [])) := by
  induction l with
  | nil => rfl
  | cons c rest ih =>
    rw [List.map_cons, List.map_cons, List.mapM_cons,
      decodeChange_encodeChange, ih]
    rfl

/-- Encoding entry lists is a map over the entries. -/
theorem encodeNodeEntries_eq_map (l : List (Str × ArgNode)) :
    encodeNodeEntries l = l.map (fun e => (e.1, encodeNode e.2)) := by
  induction l with
  | nil => rfl
  | cons e rest ih => simp [encodeNodeEntries, ih]

end SerializationLemmas

mutual

/-- Decoding the encoding of a canonical argument node recovers it. -/
theorem decodeNode_encodeNode : ∀ n : ArgNode, canonicalNodeB n = true →
    decodeNode (encodeNode n) = Except.ok n
  | .leaf s, _ => by simp [encodeNode, decodeNode]
  | .arr items, h => by
    have hl := decodeNodeList_encodeNodeList items
      (by simpa [canonicalNodeB] using h)
    simp [encodeNode, decodeNode, hl, exceptBind_ok]
  | .obj entries, h => by
    have hp : List.Pairwise nodeKeyLE entries ∧
        canonicalEntriesB entries = true := by
      simpa [canonicalNodeB] using h
    have he := decodeNodeEntries_encodeNodeEntries entries hp.2
    have hsorted : List.Pairwise jsonKeyLE (encodeNodeEntries entries) := by
      rw [encodeNodeEntries_eq_map]
      exact List.pairwise_map.mpr hp.1
    have hsort2 : List.insertionSort jsonKeyLE (encodeNodeEntries entries) =
        encodeNodeEntries entries :=
      List.Sorted.insertionSort_eq hsorted
    simp [encodeNode, decodeNode, hsort2, he, exceptBind_ok]

/-- Decoding the encoding of a canonical node list recovers it. -/
theorem decodeNodeList_encodeNodeList : ∀ l : List ArgNode,
    canonicalNodeListB l = true →
    decodeNodeList (encodeNodeList l) = Except.ok l
  | [], _ => by simp [encodeNodeList, decodeNodeList]
  | n :: rest, h => by
    have h2 : canonicalNodeB n = true ∧ canonicalNodeListB rest = true := by
      simpa [canonicalNodeListB, Bool.and_eq_true] using h
    have hn := decodeNode_encodeNode n h2.1
    have hr := decodeNodeList_encodeNodeList rest h2.2
    simp [encodeNodeList, decodeNodeList, hn, hr, exceptBind_ok]

/-- Decoding the encoding of a canonical entry list recovers it. -/
theorem decodeNodeEntries_encodeNodeEntries : ∀ l : List (Str × ArgNode),
    canonicalEntriesB l = true →
    decodeNodeEntries (encodeNodeEntries l) = Except.ok l
  | [], _ => by simp [encodeNodeEntries, decodeNodeEntries]
  | (k, n) :: rest, h => by
    have h2 : canonicalNodeB n = true ∧ canonicalEntriesB rest = true := by
      simpa [canonicalEntriesB, Bool.and_eq_true] using h
    have hn := decodeNode_encodeNode n h2.1
    have hr := decodeNodeEntries_encodeNodeEntries rest h2.2
    simp [encodeNodeEntries, decodeNodeEntries, hn, hr, exceptBind_ok]

end

section SerializationLemmasTwo

/-- Decoding an array of plain strings. -/
theorem decodeStrList_map_str (l : List Str) :
    decodeStrList (l.map Json.str) = Except.ok l := by
  induction l with
  | nil => rfl
  | cons s rest ih => simp [decodeStrList, ih, exceptBind_ok]

/-- Decoding the encoding of canonical task arguments recovers them. -/
theorem decodeArguments_encodeArguments (args : TaskArguments)
    (h : canonicalArgsB args = true) :
    decodeArguments (encodeArguments args) = Except.ok args := by
  cases args with
  | seq items =>
    simp [encodeArguments, decodeArguments, decodeStrList_map_str,
      exceptBind_ok]
  | dict entries =>
    have hp : List.Pairwise nodeKeyLE entries ∧
        canonicalEntriesB entries = true := by
      simpa [canonicalArgsB] using h
    have he := decodeNodeEntries_encodeNodeEntries entries hp.2
    have hsorted : List.Pairwise jsonKeyLE (encodeNodeEntries entries) := by
      rw [encodeNodeEntries_eq_map]
      exact List.pairwise_map.mpr hp.1
    have hsort2 : List.insertionSort jsonKeyLE (encodeNodeEntries entries) =
        encodeNodeEntries entries :=
      List.Sorted.insertionSort_eq hsorted
    simp [encodeArguments, decodeArguments, hsort2, he, exceptBind_ok]

/-- Re-running the constructor over the changes rebuilt from primitives
(what decoding does) yields the original constructed task. -/
theorem init_relift (sys : ConfigurationSystem) (exe : Str)
    (args : TaskArguments) (changes₀ : List ConfigurationChange) :
    ConfigurationTask.init sys exe args
      ((ConfigurationTask.init sys exe args changes₀).changes.map
        (fun c => c.from_arguments [])) =
    ConfigurationTask.init sys exe args changes₀ := by
  have hc : changesSorted
      (((ConfigurationTask.init sys exe args changes₀).changes.map
          (fun c => c.from_arguments [])).map
        (fun c => c.from_arguments (extractPoolList args))) =
      changesSorted (changes₀.map
        (fun c => c.from_arguments (extractPoolList args))) := by
    rw [List.map_map]
    have h1 : ((ConfigurationTask.init sys exe args changes₀).changes).map
        ((fun c => c.from_arguments (extractPoolList args)) ∘
          (fun c => c.from_arguments [])) =
        ((ConfigurationTask.init sys exe args changes₀).changes).map
          (fun c => c.from_arguments (extractPoolList args)) :=
      List.map_congr_left
        (fun x _ => from_arguments_idem x [] (extractPoolList args))
    rw [h1]
    have hTch : (ConfigurationTask.init sys exe args changes₀).changes =
        changesSorted (changes₀.map
          (fun c => c.from_arguments (extractPoolList args))) := rfl
    rw [hTch]
    have h2 : (changesSorted (changes₀.map
          (fun c => c.from_arguments (extractPoolList args)))).map
        (fun c => c.from_arguments (extractPoolList args)) =
        changesSorted (changes₀.map
          (fun c => c.from_arguments (extractPoolList args))) := by
      conv_rhs => rw [← List.map_id (changesSorted (changes₀.map
        (fun c => c.from_arguments (extractPoolList args))))]
      refine List.map_congr_left ?_
      intro x hx
      obtain ⟨c, hc0, hxc⟩ := List.mem_map.mp ((mem_changesSorted x _).mp hx)
      rw [← hxc]
      exact from_arguments_idem c (extractPoolList args)
        (extractPoolList args)
    rw [h2, changesSorted_idem]
  show ConfigurationTask.mk sys exe args
      (changesSorted
        (((ConfigurationTask.init sys exe args changes₀).changes.map
            (fun c => c.from_arguments [])).map
          (fun c => c.from_arguments (extractPoolList args))))
      (extractPoolList args).toFinset =
    ConfigurationTask.mk sys exe args
      (changesSorted (changes₀.map
        (fun c => c.from_arguments (extractPoolList args))))
      (extractPoolList args).toFinset
  rw [hc]

/-- Decoding the encoding of a constructed task with canonical arguments
yields the task back. -/
theorem decodeTask_encodeTask_init (sys : ConfigurationSystem) (exe : Str)
    (args : TaskArguments) (changes₀ : List ConfigurationChange)
    (hargs : canonicalArgsB args = true) :
    decodeTask (encodeTask (ConfigurationTask.init sys exe args changes₀)) =
      Except.ok (ConfigurationTask.init sys exe args changes₀) := by
  have hred : decodeTask (encodeTask
      (ConfigurationTask.init sys exe args changes₀)) =
      (do
        let sys2 ← decodeSystem sys.value
        let args2 ← decodeArguments (encodeArguments args)
        let cs2 ← List.mapM decodeChange
          ((ConfigurationTask.init sys exe args changes₀).changes.map
            encodeChange)
        Except.ok (ConfigurationTask.init sys2 exe args2 cs2)) := rfl
  rw [hred, decodeSystem_value, decodeArguments_encodeArguments args hargs,
    mapM_decodeChange]
  show Except.ok (ConfigurationTask.init sys exe args
      ((ConfigurationTask.init sys exe args changes₀).changes.map
        (fun c => c.from_arguments []))) =
    Except.ok (ConfigurationTask.init sys exe args changes₀)
  exact congrArg Except.ok (init_relift sys exe args changes₀)

end SerializationLemmasTwo

/-- C7: task serialization round-trips. For every configuration task
produced by the constructor (in Python every task is) whose arguments are
in the canonical form the model uses to represent a `frozendict`
(mappings listed with sorted keys; plain sequence arguments always are),
decoding the JSON encoding yields a task equal to the original, and
re-encoding any decoding result renders byte-identical JSON (stable
sorted keys, the change set as a sorted array, synthetic values encoded
as their `original_value` only). -/
theorem task_serialization_roundtrip (sys : ConfigurationSystem) (exe : Str)
    (args : TaskArguments) (changes₀ : List ConfigurationChange)
    (hargs : canonicalArgsB args = true) :
    decodeTask (encodeTask (ConfigurationTask.init sys exe args changes₀)) =
      Except.ok (ConfigurationTask.init sys exe args changes₀) ∧
    ∀ t2 : ConfigurationTask,
      decodeTask (encodeTask
        (ConfigurationTask.init sys exe args changes₀)) = Except.ok t2 →
      renderJson (encodeTask t2) =
        renderJson (encodeTask
          (ConfigurationTask.init sys exe args changes₀)) := by
  have h1 := decodeTask_encodeTask_init sys exe args changes₀ hargs
  refine ⟨h1, ?_⟩
  intro t2 h2
  rw [h1] at h2
  rw [← Except.ok.inj h2]

/-- C7 witness: the round trip at a concrete shell task. -/
theorem task_serialization_roundtrip_witness :
    canonicalArgsB (TaskArguments.seq ["file.txt".toList]) = true ∧
    (decodeTask (encodeTask (ConfigurationTask.init .shell "rm".toList
        (TaskArguments.seq ["file.txt".toList])
        [.fileDelete (.ofPrimitive "file.txt".toList [])])) =
      Except.ok (ConfigurationTask.init .shell "rm".toList
        (TaskArguments.seq ["file.txt".toList])
        [.fileDelete (.ofPrimitive "file.txt".toList [])]) ∧
    ∀ t2 : ConfigurationTask,
      decodeTask (encodeTask (ConfigurationTask.init .shell "rm".toList
        (TaskArguments.seq ["file.txt".toList])
        [.fileDelete (.ofPrimitive "file.txt".toList [])])) =
        Except.ok t2 →
      renderJson (encodeTask t2) =
        renderJson (encodeTask (ConfigurationTask.init .shell "rm".toList
          (TaskArguments.seq ["file.txt".toList])
          [.fileDelete (.ofPrimitive "file.txt".toList [])]))) :=
  ⟨rfl, task_serialization_roundtrip .shell "rm".toList
    (TaskArguments.seq ["file.txt".toList])
    [.fileDelete (.ofPrimitive "file.txt".toList [])] rfl⟩
